import Mathlib

/-!
Verification of the Anaximander simulator core against its specification.

The Go sources are shallowly embedded: pure functions become Lean functions,
map iteration becomes list traversal (quantified over orders where the order
is not fixed by the source), machine integers become `Nat`/`Int`, and Go
`float64` plateau ratios are modelled by exact rationals (a comment at each
use justifies that the modelled comparisons agree with IEEE semantics on the
concrete values involved).
-/

set_option maxHeartbeats 1000000

/- ================================================================== -/
/-  Bit-string utilities (ip_addresses.go)                            -/
/- ================================================================== -/

/-- Little-endian bit expansion of a natural number to width `w`
(low-order bit first). -/
def bitsLE : Nat → Nat → List Bool
  | 0, _ => []
  | w + 1, n => (n % 2 == 1) :: bitsLE w (n / 2)

/-- Value of a little-endian bit list. -/
def valLE : List Bool → Nat
  | [] => 0
  | b :: t => (if b then 1 else 0) + 2 * valLE t

/-- Big-endian bit expansion (most-significant bit first), as produced by
the `%08b` format verbs in `get_binary_string`. -/
def bitsBE (w n : Nat) : List Bool := (bitsLE w n).reverse

/-- Value of a big-endian bit list, as computed by `strconv.ParseUint (s, 2, 8)`. -/
def valBE (l : List Bool) : Nat := valLE l.reverse

/-- Embeds `get_binary_string` (ip_addresses.go): the 32-bit binary expansion
of the base address, truncated at the mask length.  The prefix string
`a.b.c.d/l` is represented structurally by the 32-bit address value `addr`
and the mask `len`; the `'0'/'1'` characters are represented by booleans. -/
def get_binary_string (addr len : Nat) : List Bool :=
  (bitsBE 32 addr).take len

/-- Embeds `get_0_string` (ip_addresses.go). -/
def get_0_string (n : Nat) : List Bool := List.replicate n false

/-- Embeds `get_prefix_from_binary` (ip_addresses.go): right-pad the binary
string with zeros to 32 bits, parse the four 8-bit groups, return the four
octets together with the mask (the length of the input string). -/
def get_prefix_from_binary (binary : List Bool) : (Nat × Nat × Nat × Nat) × Nat :=
  let mask := binary.length
  let padded := binary ++ get_0_string (32 - mask)
  ((valBE (padded.take 8),
    valBE ((padded.drop 8).take 8),
    valBE ((padded.drop 16).take 8),
    valBE ((padded.drop 24).take 8)), mask)

/-- Octets of a 32-bit address. -/
def octets (n : Nat) : Nat × Nat × Nat × Nat :=
  (n / 2 ^ 24 % 256, n / 2 ^ 16 % 256, n / 2 ^ 8 % 256, n % 256)

/-- Rendering `a.b.c.d/l` of a structured prefix, shared by both sides of the
round-trip claim (in Go the rendering/parsing of the dotted-decimal text is
done by `net.ParseIP` and `strconv`, and is injective on octet quadruples). -/
def render_pfx (o : (Nat × Nat × Nat × Nat) × Nat) : String :=
  toString o.1.1 ++ "." ++ toString o.1.2.1 ++ "." ++ toString o.1.2.2.1 ++ "."
    ++ toString o.1.2.2.2 ++ "/" ++ toString o.2

/- ================================================================== -/
/-  RIB entries and next-hop extraction (rib.go)                      -/
/- ================================================================== -/

/-- Embeds the struct `Rib_entry` (rib.go); the Go map `as_to_next_hop_AS`
becomes an association list. -/
structure Rib_entry where
  as_path : List String
  as_to_next_hop_AS : List (String × String)
deriving DecidableEq, Repr

/-- Association-list lookup (first binding wins, as for a Go map in which a
key is written at most once per distinct value). -/
def alookup (k : String) (m : List (String × String)) : Option String :=
  (m.find? (fun p => p.1 == k)).map (fun p => p.2)

/-- Embeds the loop of `get_prev_or_next_as` (rib.go): `i` is the index inside
`full` of the head of `rest`. -/
def gpn_go (A : String) (full : List String) (dir : Int) : Nat → List String → String
  | _, [] => ""
  | i, a :: rest =>
    if a = A then
      if (i : Int) + dir < 0 ∨ (i : Int) + dir ≥ (full.length : Int) then A
      else ((full.get? ((i : Int) + dir).toNat).getD "")
    else gpn_go A full dir (i + 1) rest

/-- Embeds `get_prev_or_next_as` (rib.go). -/
def get_prev_or_next_as (A : String) (as_path : List String) (dir : Int) : String :=
  gpn_go A as_path dir 0 as_path

/-- Loop body of `get_Rib_entry` (rib.go): record the previous/next AS of one
AS of interest unless `get_prev_or_next_as` returned the empty string. -/
def next_hop_insert (as_path : List String) (direction : Int)
    (m : List (String × String)) (a : String) : List (String × String) :=
  let target := get_prev_or_next_as a as_path direction
  if target ≠ "" then m ++ [(a, target)] else m

/-- Embeds `get_Rib_entry` (rib.go); the `as_path` string argument has already
been split on blanks into its ASN tokens. -/
def get_Rib_entry (as_path : List String) (ases_interest : List String)
    (direction : Int) : Rib_entry :=
  { as_path := as_path,
    as_to_next_hop_AS := ases_interest.foldl (next_hop_insert as_path direction) [] }

/- ================================================================== -/
/-  Probing strategies: target list and AS limits                     -/
/-  (anaximander_strategy.go, probing_strategies*.go)                 -/
/- ================================================================== -/

/-- Embeds the struct `AS_limit` (anaximander_strategy.go): the one-past-last
index of a contiguous run of probes of one AS in the target list. -/
structure AS_limit where
  asn : String
  limit : Nat
deriving DecidableEq, Repr

/-- Association lookup in an `AS → probes` map (`AS_probes` in the source);
Go map values are modelled as lists of probes. -/
def plookup (k : String) (m : List (String × List String)) : Option (List String) :=
  (m.find? (fun p => p.1 == k)).map (fun p => p.2)

/-- Embeds `add_AS_probes` (probing_strategies_utils.go): for each AS in
order, append every probe of `AS_probes[AS]` transformed by `get_probe` to the
target list, and push an `AS_limit` carrying the new length after each AS
found in the map; an AS unknown to the map contributes nothing. -/
def add_AS_probes (s : List String) (ases : List String) (limits : List AS_limit)
    (AS_probes : List (String × List String)) (get_probe : String → String) :
    List String × List AS_limit :=
  ases.foldl (fun acc AS =>
    match plookup AS AS_probes with
    | some probes => (acc.1 ++ probes.map get_probe,
        acc.2 ++ [⟨AS, (acc.1 ++ probes.map get_probe).length⟩])
    | none => acc) (s, limits)

/-- One group-emitting building block of a probing strategy
(probing_strategies.go).  Every strategy of the menu builds its
`(targets, limits)` pair from the empty pair by a sequence of exactly these
two steps: `push` appends a fixed probe group and then one `AS_limit` at the
new length (the internal-prefix group of strategies 8-11, 13-17, 20, 21, the
two groups of strategies 3 and 4, and the single group of strategies 0, 1, 7,
12, 18, 19), and `addAS` is a call to `add_AS_probes` (strategies 2, 5, 6,
8-17, 20, 21). -/
inductive StratOp where
  | push (probes : List String) (asn : String)
  | addAS (ases : List String) (probes : List (String × List String)) (gp : String → String)

/-- Interpretation of a strategy as the sequence of its group-emitting steps,
starting from the empty target list and the empty limit list. -/
def run_strategy_ops (ops : List StratOp) : List String × List AS_limit :=
  ops.foldl (fun acc op =>
    match op with
    | .push probes asn => (acc.1 ++ probes, acc.2 ++ [⟨asn, (acc.1 ++ probes).length⟩])
    | .addAS ases m gp => add_AS_probes acc.1 ases acc.2 m gp) ([], [])

/-- Concatenation of the target segments delimited by consecutive limit
values (with implicit leading boundary 0). -/
def concat_segments (s : List String) (cuts : List Nat) : List String :=
  (cuts.foldl (fun acc c => (acc.1 ++ ((s.drop acc.2).take (c - acc.2)), c))
    (([] : List String), 0)).1

/-- Well-formedness of a `(targets, limits)` pair: limits are non-decreasing,
bounded by the target count, the last limit (when any) equals the target
count, and without limits there are no targets. -/
def limits_inv (s : List String) (limits : List AS_limit) : Prop :=
  List.Chain' (fun a b => a.limit ≤ b.limit) limits ∧
  (∀ e ∈ limits, e.limit ≤ s.length) ∧
  (limits.getLast? = none → s = []) ∧
  (∀ e, limits.getLast? = some e → e.limit = s.length)

/- ================================================================== -/
/-  Sequential scheduler, per-AS inner loop (anaximander_sequential.go) -/
/- ================================================================== -/

/-- Embeds the per-AS probe loop of `anaximander_sequential`
(anaximander_sequential.go, lines 67-111) for one AS.  State: `p` is
`current_plateau_length`, `k` the loop index; `fuel` bounds the remaining
iterations (passed as `stop - k`, so it never runs out while `k < stop`).
`disc` tells whether the probe at index `k` yielded discovery (one of the
three visible counters increased).  On discovery the plateau resets; otherwise
it is incremented and when `plateau / (stop - start) > tau` the loop sets
`stop`, performs the extra `k++` of the source and breaks.  Returns the final
`k` (so `k - start` is the number of probes consumed) and the stop flag.
The Go `float64` ratio is modelled by exact rational division; for the
concrete values of the claim (plateau of at most 11, span 100, tau = 0.1) the
IEEE comparisons agree with the rational ones. -/
def seq_go (τ : ℚ) (stop span : Nat) (disc : Nat → Bool) :
    Nat → Nat → Nat → Nat × Bool
  | _, k, 0 => (k, false)
  | p, k, fuel + 1 =>
    if k < stop then
      if disc k then seq_go τ stop span disc 0 (k + 1) fuel
      else
        let p' := p + 1
        if ((p' : ℚ) / (span : ℚ) > τ) then (k + 1, true)
        else seq_go τ stop span disc p' (k + 1) fuel
    else (k, false)

/-- Per-AS run of the sequential scheduler from `start` to `stop`. -/
def anaximander_sequential_AS (τ : ℚ) (start stop : Nat) (disc : Nat → Bool) :
    Nat × Bool :=
  seq_go τ stop (stop - start) disc 0 start (stop - start)

/- ================================================================== -/
/-  ip2as reading and /24 expansion (caida_file_readers.go,           -/
/-  ip_addresses.go)                                                  -/
/- ================================================================== -/

/-- Embeds `IP.Mask`: clear the host bits of a 32-bit address below mask
length `len`. -/
def mask_addr (addr len : Nat) : Nat := addr / 2 ^ (32 - len) * 2 ^ (32 - len)

/-- Embeds `get_subnets` (ip_addresses.go) on structured prefixes
`(addr, len)`: when the requested mask length does not exceed the prefix
length, re-mask to the requested length; otherwise enumerate all
`2^(mask_length - len)` tiles via `ip | (i << host_length)`. -/
def get_subnets (addr len mask_length : Nat) : List (Nat × Nat) :=
  if mask_length ≤ len then [(mask_addr addr mask_length, mask_length)]
  else (List.range (2 ^ (mask_length - len))).map
    (fun i => (addr ||| (i <<< (32 - mask_length)), mask_length))

/-- Insert-or-replace into a prefix-keyed map (a Go map write). -/
def upsertP (m : List ((Nat × Nat) × String)) (k : Nat × Nat) (v : String) :
    List ((Nat × Nat) × String) :=
  if m.any (fun p => p.1 == k) then m.map (fun p => if p.1 == k then (k, v) else p)
  else m ++ [(k, v)]

/-- Lookup in a prefix-keyed map. -/
def pfx_lookup (k : Nat × Nat) (m : List ((Nat × Nat) × String)) : Option String :=
  (m.find? (fun p => p.1 == k)).map (fun p => p.2)

/-- Embeds `append_prefix` (caida_file_readers.go) for the
`as_24prefixes` map: add a prefix to the set of prefixes of an AS
(Go sets are maps, so duplicates collapse). -/
def append_pfx (m : List (String × List (Nat × Nat))) (a : String) (p : Nat × Nat) :
    List (String × List (Nat × Nat)) :=
  if m.any (fun q => q.1 == a) then
    m.map (fun q => if q.1 == a then (q.1, if q.2.contains p then q.2 else q.2 ++ [p]) else q)
  else m ++ [(a, [p])]

/-- Lookup of the /24 prefix set of an AS. -/
def as24_lookup (a : String) (m : List (String × List (Nat × Nat))) : List (Nat × Nat) :=
  ((m.find? (fun q => q.1 == a)).map (fun q => q.2)).getD []

/-- Insertion into a list sorted by ascending mask length (the source sorts
with `sort.Sort` on the mask-length weight; ties cannot overlap at /24
granularity, so any order among equal lengths yields the same maps). -/
def insertByLen (x : Nat × Nat) : List (Nat × Nat) → List (Nat × Nat)
  | [] => [x]
  | y :: ys => if x.2 ≤ y.2 then x :: y :: ys else y :: insertByLen x ys

/-- Sort prefixes by ascending mask length. -/
def sortByLen (l : List (Nat × Nat)) : List (Nat × Nat) := l.foldr insertByLen []

/-- Result of the /24 expansion of `read_ip2as`. -/
structure Ip2asResult where
  prefix24_as : List ((Nat × Nat) × String)
  as_24prefixes : List (String × List (Nat × Nat))

/-- Embeds `read_ip2as` (caida_file_readers.go), restricted to its /24
expansion outputs (`_prefix24_as`, `_as_24prefixes`): record the prefix→AS
lines (skipping `AS == -1`), sort the prefixes by ascending mask length,
expand each into its /24 tiles, let later (more-specific) prefixes override
`prefix24_as`, and add every tile to `as_24prefixes[as]` (without removing it
from the AS of a covering prefix).  Input lines carry structured, already
canonical prefixes (the source keys its map by the prefix text and parses it
back with `net.ParseCIDR`). -/
def read_ip2as (lines : List ((Nat × Nat) × String)) : Ip2asResult :=
  let prefix_as := lines.foldl (fun m l => if l.2 == "-1" then m else upsertP m l.1 l.2) []
  let sorted := sortByLen (prefix_as.map (fun p => p.1))
  sorted.foldl (fun r p =>
    match pfx_lookup p prefix_as with
    | none => r
    | some a =>
      (get_subnets p.1 p.2 24).foldl (fun r2 sb =>
        { prefix24_as := upsertP r2.prefix24_as sb a,
          as_24prefixes := append_pfx r2.as_24prefixes a sb }) r)
    ⟨[], []⟩

/- ================================================================== -/
/-  Batched-parallel and greedy schedulers (parallel_anaximander.go,  -/
/-  greedy_anaximander.go in unnamed sources)                         -/
/- ================================================================== -/

/-- Embeds the struct `AS_status` (the `end` field is `end_` since `end` is
reserved in Lean). -/
structure AS_status where
  asn : String
  start : Nat
  end_ : Nat
  curr_probe : Nat
  plateau : Nat
  stopped : Bool
  position : Nat
deriving DecidableEq, Repr, Inhabited

/-- Embeds `launch_as_probing`: return the current target (empty when the AS
is stopped or exhausted), always increment `curr_probe`, and when the counter
just reached the end of a not-yet-stopped AS, set `stopped` and increment the
global stopped counter.  An out-of-range index (which cannot happen when
`end_` is within the destination list) yields the empty destination. -/
def launch_as_probing (sorted_destinations : List String) (st : AS_status) (sa : Nat) :
    String × AS_status × Nat :=
  let destination := if st.stopped ∨ st.end_ ≤ st.curr_probe then ""
    else (sorted_destinations.get? st.curr_probe).getD ""
  let st1 := { st with curr_probe := st.curr_probe + 1 }
  if st1.curr_probe = st.end_ ∧ st.stopped = false then
    (destination, { st1 with stopped := true }, sa + 1)
  else (destination, st1, sa)

/-- Embeds the no-discovery bookkeeping shared verbatim by the
batched-parallel and greedy schedulers: increment the plateau and, when
`plateau / (end - start)` exceeds the threshold, set `stopped` and increment
the global counter unless the AS was already stopped (the Go `float64` ratio
is modelled by exact rational division). -/
def plateau_update (τ : ℚ) (st : AS_status) (sa : Nat) : AS_status × Nat :=
  let st' := { st with plateau := st.plateau + 1 }
  if ((st'.plateau : ℚ) / (((st.end_ - st.start : Nat)) : ℚ) > τ) then
    (if st'.stopped = false then ({ st' with stopped := true }, sa + 1) else (st', sa))
  else (st', sa)

/-- One probe consumption for one AS, common to the inner loops of
`anaximander_parallel` and `anaximander_greedy`: launch the probing, and when
a destination was produced either reset the plateau (discovery `d = true`) or
run the plateau bookkeeping. -/
def as_probe_step (τ : ℚ) (dests : List String) (d : Bool) (st : AS_status) (sa : Nat) :
    AS_status × Nat :=
  let r := launch_as_probing dests st sa
  if r.1 = "" then (r.2.1, r.2.2)
  else if d then ({ r.2.1 with plateau := 0 }, r.2.2)
  else plateau_update τ r.2.1 r.2.2

/-- Small-step relation of the two schedulers on the global state
`(ases_status, stopped_ases)`: some AS at index `i` consumes one probe, with
discovery outcome `d`.  Both schedulers perform exactly sequences of such
steps (they differ only in which index fires next). -/
inductive SimStep (τ : ℚ) (dests : List String) :
    (List AS_status × Nat) → (List AS_status × Nat) → Prop
  | probe (sts : List AS_status) (sa : Nat) (i : Nat) (d : Bool) (h : i < sts.length) :
      SimStep τ dests (sts, sa)
        (sts.set i (as_probe_step τ dests d (sts.get ⟨i, h⟩) sa).1,
         (as_probe_step τ dests d (sts.get ⟨i, h⟩) sa).2)

/-- Number of stopped ASes in a status list. -/
def count_stopped (sts : List AS_status) : Nat :=
  (sts.filter (fun st => st.stopped)).length

/- ------------------------------------------------------------------ -/
/-  overlays_processing.go : remove_overlays (C4)                     -/
/- ------------------------------------------------------------------ -/

/-- The per-AS state of `remove_overlays` (`src/overlays_processing.go`
117-148): `seen` is Go's `seen : map[string]map[string]interface{}` (a set of
raw probes per vantage point), `s` the result set of /24 prefixes, and
`kept` the chronological trace of probes that took the record branch (added
to `s` with a present VP), paired with their VP. -/
structure OvState where
  seen : String → Finset String
  s : Finset String
  kept : List (String × String)

/-- One iteration of the inner `for probe := range AS_probes[AS]` loop of
`remove_overlays`.  `g24` models `_get_24_prefix` (random inside a wider
prefix, identity on /24s), `tvp` models `target_to_vp.get`, and `ov v p`
models `overlays[v][p]` (a missing entry is the empty Go map, hence `∅`).
Note the membership test and the group lookup use the raw `probe` while `s`
records `probe_24`, exactly as in the source. -/
def remove_overlays_step (g24 : String → String) (tvp : String → Option String)
    (ov : String → String → Finset String) (st : OvState) (probe : String) : OvState :=
  match tvp (g24 probe) with
  | none => { st with s := insert (g24 probe) st.s }
  | some vp =>
    if probe ∈ st.seen vp then st
    else
      { seen := fun v => if v = vp then st.seen vp ∪ ov vp probe else st.seen v,
        s := insert (g24 probe) st.s,
        kept := st.kept ++ [(probe, vp)] }

/-- The body of `remove_overlays` for one AS: fold the inner loop over the
probes of that AS (a Go map range, so `probes` is an arbitrary enumeration),
starting from empty `seen` and `s` (lines 121-122). -/
def remove_overlays_AS (g24 : String → String) (tvp : String → Option String)
    (ov : String → String → Finset String) (probes : List String) : OvState :=
  probes.foldl (remove_overlays_step g24 tvp ov) ⟨fun _ => ∅, ∅, []⟩

/-- Invariant of the inner loop: every recorded probe's overlay group has
been merged into `seen` at its VP, and no recorded probe belongs to the
overlay group of an earlier recorded probe at the same VP. -/
def OvInv (ov : String → String → Finset String) (st : OvState) : Prop :=
  (∀ e ∈ st.kept, ov e.2 e.1 ⊆ st.seen e.2) ∧
  st.kept.Pairwise (fun e1 e2 => e1.2 = e2.2 → e2.1 ∉ ov e1.2 e1.1)

/-- Concrete overlay map for the C4 witness: a single overlay group
shared by all probes at every vantage point. -/
def ovW : String → String → Finset String := fun _ _ => {"a", "b"}

/-- Concrete `target_to_vp` for the C4 witness: probe "c" is absent from the
traces, the others were launched by vantage point "v". -/
def tvpW : String → Option String := fun p => if p = "c" then none else some "v"

/- ------------------------------------------------------------------ -/
/-  rib.go / unnamed/part_006 : BGP selection heuristics (C1)         -/
/- ------------------------------------------------------------------ -/

/-- Embeds `remove_duplicates` (main.go 356-366): drop an element equal to
its predecessor; `prev` starts as the empty string. -/
def remove_duplicates_go (slice : List String) : List String :=
  (slice.foldl (fun (acc : List String × String) s =>
    (if s ≠ acc.2 then acc.1 ++ [s] else acc.1, s)) ([], "")).1

/-- Loop body of `routing_loop` (main.go 368-377): flag a repeated element;
the `seen` Go map is modelled by the list of elements met so far. -/
def rl_step (acc : List String × Bool) (s : String) : List String × Bool :=
  if s ∈ acc.1 then (acc.1, true) else (s :: acc.1, acc.2)

/-- Embeds `routing_loop` (main.go 368-377): true when some element occurs
twice. -/
def routing_loop (slice : List String) : Bool :=
  (slice.foldl rl_step ([], false)).2

/-- Embeds `find_index` (main.go 379-386): index of the first occurrence,
`-1` when absent. -/
def find_index (slice : List String) (element : String) : Int :=
  match slice.findIdx? (fun s => s == element) with
  | some i => (i : Int)
  | none => -1

/-- The `next_hop` computation at the head of `select_entry`'s entry loop
(part_006 248-257).  When the pivot occurs at index 0 the Go code would read
`path[-1]` and panic; pivot nodes always have a predecessor by construction
of the tree, and for the empty pivot the index is `-1`. -/
def next_hop_of (pivot : String) (path : List String) : String :=
  if find_index path pivot = -1 then ""
  else (path.get? (find_index path pivot - 1).toNat).getD ""

/-- The `heuristic_fn` shape (part_006 166-170): from the candidate's next
hop, the candidate entry and the current selection `(selected_next_hop,
selected_entry)`, return whether the heuristic applied (stopping the chain)
and the possibly updated selection. -/
def HFn : Type :=
  String → Rib_entry → String × Rib_entry → Bool × (String × Rib_entry)

/-- Embeds `generate_valley_free_heuristic` (part_006 172-184); `rel` models
`get_relationship` over the loaded `as_neighbors` table. -/
def valley_free_h (rel : String → String → Int) (pivot : String) : HFn :=
  fun nh e sel =>
    if rel pivot nh = rel pivot sel.1 then (false, sel)
    else if rel pivot nh < rel pivot sel.1 then (true, (nh, e))
    else (true, sel)

/-- Embeds `generate_heuristic_check` (part_006 186-193). -/
def heuristic_check (rel : String → String → Int) (pivot : String) : HFn :=
  fun nh _ sel =>
    if rel pivot nh = rel pivot sel.1 then (false, sel) else (true, sel)

/-- Embeds `generate_next_hop_popularity_heuristic` (part_006 195-205). -/
def next_hop_popularity_h (max_next_hop : String) (nb : Int) : HFn :=
  fun nh e sel =>
    if nb = 1 ∧ nh ≠ sel.1 then
      (true, if nh = max_next_hop then (nh, e) else sel)
    else (false, sel)

/-- Embeds `generate_shortest_path_heuristic` (part_006 207-217). -/
def shortest_path_h : HFn :=
  fun nh e sel =>
    if e.as_path.length = sel.2.as_path.length then (false, sel)
    else if e.as_path.length < sel.2.as_path.length then (true, (nh, e))
    else (true, sel)

/-- Embeds `generate_most_ases_interest_heuristic` (part_006 219-229). -/
def most_ases_interest_h : HFn :=
  fun nh e sel =>
    if e.as_path.length = sel.2.as_path.length then
      (true, if sel.2.as_to_next_hop_AS.length < e.as_to_next_hop_AS.length
             then (nh, e) else sel)
    else (false, sel)

/-- The heuristic cascade of `select_entry`'s inner loop (part_006 264-268):
apply each heuristic in order and stop at the first that applied. -/
def run_heuristics : List HFn → String → Rib_entry → String × Rib_entry →
    String × Rib_entry
  | [], _, _, sel => sel
  | h :: hs, nh, e, sel =>
    if (h nh e sel).1 then (h nh e sel).2
    else run_heuristics hs nh e (h nh e sel).2

/-- The heuristic list built at the head of `select_entry`
(part_006 236-243). -/
def heuristics_menu (rel : String → String → Int)
    (pivot max_next_hop : String) (nb : Int) : List HFn :=
  if pivot ≠ "" then
    [valley_free_h rel pivot, heuristic_check rel pivot,
     next_hop_popularity_h max_next_hop nb,
     shortest_path_h, most_ases_interest_h]
  else [shortest_path_h, most_ases_interest_h]

/-- One iteration of `select_entry`'s entry loop (part_006 248-269): the
first entry becomes the initial selection, the rest go through the
heuristic cascade. -/
def select_step (rel : String → String → Int) (pivot max_next_hop : String)
    (nb : Int) (acc : Option (String × Rib_entry)) (e : Rib_entry) :
    Option (String × Rib_entry) :=
  match acc with
  | none => some (next_hop_of pivot e.as_path, e)
  | some sel =>
    some (run_heuristics (heuristics_menu rel pivot max_next_hop nb)
      (next_hop_of pivot e.as_path) e sel)

/-- Embeds `select_entry` (part_006 231-271): iterate over the entries (a Go
map range, so any enumeration); `none` models the nil result on an empty
set. -/
def select_entry (rel : String → String → Int) (pivot : String)
    (entries : List Rib_entry) (max_next_hop : String) (nb : Int) :
    Option Rib_entry :=
  (entries.foldl (select_step rel pivot max_next_hop nb) none).map
    (fun sel => sel.2)

/-- Embeds the entry loop of `build_tree` (part_006 281-300) as it acts on
the entries of `current_routing_entries_set` (the tree itself is not needed
here): each entry's `as_path` is de-prepended in place, entries with a
routing loop are deleted from the set, and the surviving paths are reversed
in place. -/
def build_tree_entries (entries : List Rib_entry) : List Rib_entry :=
  entries.filterMap (fun e =>
    if routing_loop (remove_duplicates_go e.as_path) then none
    else some { e with as_path := (remove_duplicates_go e.as_path).reverse })

/-- The 15 reserved ranges of `reserved_prefixes` (rib.go 172-188), as
(base address, mask length). -/
def reserved_prefixes : List (Nat × Nat) :=
  [(0, 8), (10 * 2 ^ 24, 8), (100 * 2 ^ 24 + 64 * 2 ^ 16, 10),
   (127 * 2 ^ 24, 8), (169 * 2 ^ 24 + 254 * 2 ^ 16, 16),
   (172 * 2 ^ 24 + 16 * 2 ^ 16, 12), (192 * 2 ^ 24, 24),
   (192 * 2 ^ 24 + 2 * 2 ^ 8, 24),
   (192 * 2 ^ 24 + 88 * 2 ^ 16 + 99 * 2 ^ 8, 24),
   (192 * 2 ^ 24 + 168 * 2 ^ 16, 16), (198 * 2 ^ 24 + 18 * 2 ^ 16, 15),
   (198 * 2 ^ 24 + 51 * 2 ^ 16 + 100 * 2 ^ 8, 24),
   (203 * 2 ^ 24 + 113 * 2 ^ 8, 24), (224 * 2 ^ 24, 4), (240 * 2 ^ 24, 4)]

/-- `net.IPNet.Contains`: the address masked to the range's length equals the
range's (canonical) base. -/
def contains_pfx (r : Nat × Nat) (ip : Nat) : Bool :=
  decide (mask_addr ip r.2 = r.1)

/-- Embeds `check_prefix_validity` (rib.go 190-212) on an already parsed
IPv4 CIDR (address, mask length): sound mask length and no reserved range
containing the (unmasked) address. -/
def check_prefix_validity (addr len : Nat) : Bool :=
  decide (8 ≤ len) && decide (len ≤ 24) &&
    reserved_prefixes.all (fun r => ! contains_pfx r addr)

/-- The recording step of `parse_bgp_record_multi` (rib.go 415-442): a RIB
record enters `current_routing_entries_set` only when its prefix passed
`check_prefix_validity`, keyed by the canonical (masked) network; the
`as_path` record field has already been split on blanks. -/
def record_current_entry (addr len : Nat) (as_path ases_interest : List String) :
    Option ((Nat × Nat) × Rib_entry) :=
  if check_prefix_validity addr len then
    some ((mask_addr addr len, len), get_Rib_entry as_path ases_interest 1)
  else none

/-- A heuristic only ever moves the selection to the candidate entry or
keeps the current selection. -/
def HPreserves (h : HFn) : Prop :=
  ∀ nh e sel, ((h nh e sel).2).2 = e ∨ ((h nh e sel).2).2 = sel.2

/- ------------------------------------------------------------------ -/
/-  overlays_processing.go : process_overlays (C2)                    -/
/- ------------------------------------------------------------------ -/

/-- Binary radix key of a stored prefix: `process_overlays` inserts
`get_binary_string (prefix)` (overlays_processing.go 24-29). -/
def radix_key (p : Nat × Nat) : List Bool := get_binary_string p.1 p.2

/-- Rendered dotted text of a binary key, as `get_prefix_from_binary`
produces it in `generate_walk_radix_tree`. -/
def pfx_str (k : List Bool) : String := render_pfx (get_prefix_from_binary k)

/-- `a` is a proper prefix of `b`. -/
def proper_pfx (a b : List Bool) : Bool :=
  decide (a.length < b.length) && decide (b.take a.length = a)

/-- Modelled from the spec (§4.4; the radix module is external to src/): the
direct children handed by `Walk_post` to the walk function for a stored
parent: the stored keys having the parent's key as a proper prefix with no
stored key strictly in between. -/
def child_entries (table : List ((Nat × Nat) × String)) (p : Nat × Nat) :
    List ((Nat × Nat) × String) :=
  table.filter (fun c => proper_pfx (radix_key p) (radix_key c.1) &&
    !(table.any (fun d => proper_pfx (radix_key p) (radix_key d.1) &&
        proper_pfx (radix_key d.1) (radix_key c.1))))

/-- Longest common prefix of two binary keys. -/
def lcp2 : List Bool → List Bool → List Bool
  | x :: xs, y :: ys => if x = y then x :: lcp2 xs ys else []
  | _, _ => []

/-- Embeds `longestCommonPrefix` (main.go 313-340) on binary keys: the Go
loop computes the common prefix of all strings, which is the fold of the
pairwise lcp (its in-place ByLen sort does not change that value). -/
def longest_common_pfx : List (List Bool) → List Bool
  | [] => []
  | p :: ps => ps.foldl lcp2 p

/-- Length of the shortest key: what `marked_prefixes[0]` denotes after the
in-place ascending ByLen sort done inside `longestCommonPrefix`. -/
def min_key_len : List (List Bool) → Nat
  | [] => 0
  | p :: ps => ps.foldl (fun m q => min m q.length) p.length

/-- Embeds `same` (main.go 295-303); its callers guard the empty case. -/
def same_strs : List String → Bool
  | [] => true
  | r :: rest => rest.all (fun s => r == s)

/-- Embeds the body of `generate_walk_radix_tree` (overlays_processing.go
59-96) at one parent node: the (aggregate, member) pairs appended to the
overlays set — matching children under the parent's prefix, then, for at
least two marked children with a non-empty common prefix exactly tiling
`2^suffix_length` and a shared AS path, under the implicit aggregate. -/
def walk_node (table : List ((Nat × Nat) × String)) (p : (Nat × Nat) × String) :
    List (String × String) :=
  let children := child_entries table p.1
  let explicitEdges := (children.filter (fun c => c.2 == p.2)).map
    (fun c => (pfx_str (radix_key p.1), pfx_str (radix_key c.1)))
  let marked := children.filter (fun c => ! (c.2 == p.2))
  if 2 ≤ marked.length then
    let common := longest_common_pfx (marked.map (fun c => radix_key c.1))
    if common = [] then explicitEdges
    else if 2 ^ (min_key_len (marked.map (fun c => radix_key c.1)) - common.length)
          = marked.length ∧ same_strs (marked.map (fun c => c.2)) then
      explicitEdges ++ marked.map (fun c => (pfx_str common, pfx_str (radix_key c.1)))
    else explicitEdges
  else explicitEdges

/-- Modelled from the spec: the post-order walk fires the walk function once
per stored node; the pairs are gathered over the whole table (the visiting
order does not affect the component contents below). -/
def process_overlays_edges (table : List ((Nat × Nat) × String)) :
    List (String × String) :=
  table.foldl (fun acc p => acc ++ walk_node table p) []

/-- Undirected neighbors of `x` in the overlay (aggregate, member) pairs. -/
def nbrs (edges : List (String × String)) (x : String) : List String :=
  edges.filterMap (fun e => if e.1 == x then some e.2 else none) ++
  edges.filterMap (fun e => if e.2 == x then some e.1 else none)

/-- Modelled from the spec (§4.4 step 5; basic_graph is external to src/):
fuel-bounded breadth-first search collecting a connected component. -/
def reach_go (edges : List (String × String)) :
    Nat → List String → List String → List String
  | 0, visited, _ => visited
  | _ + 1, visited, [] => visited
  | fuel + 1, visited, x :: queue =>
    if x ∈ visited then reach_go edges fuel visited queue
    else reach_go edges fuel (visited ++ [x]) (queue ++ nbrs edges x)

/-- Connected component of `x` in the undirected overlay graph; the fuel
covers every possible queue insertion. -/
def component (edges : List (String × String)) (x : String) : List String :=
  reach_go edges (2 * edges.length + 2) [] [x]

/-- The selected-entry table of claim C2:
{10.0.0.0/22, 10.0.0.0/24, 10.0.1.0/24 -> "A B"; 10.0.2.0/24,
10.0.3.0/24 -> "A C"}. -/
def c2_table : List ((Nat × Nat) × String) :=
  [((10 * 2 ^ 24, 22), "A B"), ((10 * 2 ^ 24, 24), "A B"),
   ((10 * 2 ^ 24 + 2 ^ 8, 24), "A B"), ((10 * 2 ^ 24 + 2 * 2 ^ 8, 24), "A C"),
   ((10 * 2 ^ 24 + 3 * 2 ^ 8, 24), "A C")]

/- ------------------------------------------------------------------ -/
/-  anaximander_driver.go : process_trace, filterAS, ReadSqlite (C7)  -/
/- ------------------------------------------------------------------ -/

/-- Embeds the struct `Hop` (probing_strategies.go 800-807); the `ingress`
and `egress` flags play no role in the discovery sets. -/
structure Hop where
  addr : String
  asn : String
  probe_ttl : Int
  router : String
deriving DecidableEq, Repr

/-- The discovery state threaded through `process_trace` calls: the four
discovered sets, the `in_progress_discovered_routers` map (router to the at
most two member addresses recorded so far), and the per-trace discovery
counter.  Adjacencies are pairs rather than the Go strings
`addr1 + "_" + addr2` (addresses hold no underscore, so the join is
injective). -/
structure DiscState where
  adjs : Finset (String × String)
  multi_adjs : Finset (String × String)
  addrs : Finset String
  routers : Finset String
  inprog : List (String × Finset String)
  disc : Nat

/-- Lookup in the `in_progress_discovered_routers` map. -/
def inlookup (r : String) : List (String × Finset String) → Option (Finset String)
  | [] => none
  | p :: m => if p.1 = r then some p.2 else inlookup r m

/-- `SafeSet.unsafe_append`: add `a` to the set bound to `r`, creating the
binding when absent (keys stay unique). -/
def inappend : List (String × Finset String) → String → String →
    List (String × Finset String)
  | [], r, a => [(r, {a})]
  | p :: m, r, a =>
    if p.1 = r then (p.1, insert a p.2) :: m else p :: inappend m r a

/-- The two-address router logic of `process_trace` (anaximander_driver.go
155-170): record the first member address of a router; on a second distinct
member address, declare the router discovered. -/
def router_block (st1 : DiscState) (r a : String) : DiscState :=
  match inlookup r st1.inprog with
  | none => { st1 with inprog := inappend st1.inprog r a }
  | some s =>
    if s.card = 1 ∧ a ∉ s then
      { st1 with routers := insert r st1.routers,
                 inprog := inappend st1.inprog r a }
    else st1

/-- The per-hop block of `process_trace` (anaximander_driver.go 149-172):
on a hop of the AS of interest, count the discovery, record the address,
and run the two-address router logic against
`in_progress_discovered_routers`. -/
def proc_one (AS : String) (h : Hop) (st : DiscState) : DiscState :=
  if h.asn = AS then
    if h.router ≠ "" then
      router_block
        { st with addrs := insert h.addr st.addrs, disc := st.disc + 1 }
        h.router h.addr
    else { st with addrs := insert h.addr st.addrs, disc := st.disc + 1 }
  else st

/-- Embeds the hop loop of `process_trace` (anaximander_driver.go 149-189):
after the per-hop block, the adjacency block links consecutive hops by probe
TTL distance, skipped when neither endpoint is in the AS of interest, and
the loop breaks before it on the last hop. -/
def process_hops (AS : String) : List Hop → DiscState → DiscState
  | [], st => st
  | [h], st => proc_one AS h st
  | h :: h2 :: rest, st =>
    process_hops AS (h2 :: rest)
      (if h.asn ≠ AS ∧ h2.asn ≠ AS then proc_one AS h st
       else if h2.probe_ttl - h.probe_ttl = 1 then
        { proc_one AS h st with
          adjs := insert (h.addr, h2.addr) (proc_one AS h st).adjs }
       else if 1 < h2.probe_ttl - h.probe_ttl then
        { proc_one AS h st with
          multi_adjs := insert (h.addr, h2.addr) (proc_one AS h st).multi_adjs }
       else proc_one AS h st)

/-- A full simulation run: `process_trace` over every probed trace in
order, from the given state. -/
def process_traces (AS : String) (trs : List (List Hop)) (st : DiscState) :
    DiscState :=
  trs.foldl (fun s t => process_hops AS t s) st

/-- The empty discovery state the schedulers start from
(anaximander_sequential.go 49-50). -/
def init_disc : DiscState := ⟨∅, ∅, ∅, ∅, [], 0⟩

/-- Embeds `filterAS` (anaximander_driver.go 99-136).  The Go comparison
`as1 == AS` of a possibly-nil interface against a string is the option
comparison `alookup _ == some AS`. -/
def filterAS (AS : String) (adjs multi_adjs : List (String × String))
    (addresses : List String) (router_to_asn addr_to_asn : List (String × String)) :
    List (String × String) × List (String × String) × List String × List String :=
  (adjs.filter (fun p =>
      alookup p.1 addr_to_asn == some AS || alookup p.2 addr_to_asn == some AS),
   multi_adjs.filter (fun p =>
      alookup p.1 addr_to_asn == some AS || alookup p.2 addr_to_asn == some AS),
   addresses.filter (fun a => alookup a addr_to_asn == some AS),
   router_to_asn.filterMap (fun p => if p.2 == AS then some p.1 else none))

/-- Go map write (last write wins, keys unique). -/
def supd (m : List (String × String)) (k v : String) : List (String × String) :=
  if m.any (fun p => p.1 == k) then
    m.map (fun p => if p.1 == k then (k, v) else p)
  else m ++ [(k, v)]

/-- Embeds `ReadSqlite` (probing_strategies.go 995-1049) over the annotation
rows (addr, router, asn): build `addr_to_asn`, `router_to_asn` and
`addr_to_router`; `isIp` models the `re_ip` match detecting an address that
was not matched to a router. -/
def ReadSqlite (isIp : String → Bool) (rows : List (String × String × Int)) :
    List (String × String) × List (String × String) × List (String × String) :=
  rows.foldl (fun acc row =>
    (supd acc.1 row.1 (toString row.2.2),
     if isIp row.2.1 then acc.2.1 else supd acc.2.1 row.2.1 (toString row.2.2),
     if isIp row.2.1 then supd acc.2.2 row.1 "" else supd acc.2.2 row.1 row.2.1))
    ([], [], [])

/-- The rows of the C7 counterexample: a bdrmapit router `R` whose member
addresses are annotated with two different ASNs; `ReadSqlite` keeps the last
row's ASN for `R`. -/
def c7rows : List (String × String × Int) :=
  [("a1", ("R", 1)), ("a2", ("R", 1)), ("a3", ("R", 2))]

/-- The discovery-set invariant of C7 relative to the AS-filtered ground
truth `F = (adjs, multi_adjs, addresses, routers)`: the four discovered sets
are subsets, and every discovered router has two recorded member
addresses. -/
def DiscInv (F : List (String × String) × List (String × String) ×
    List String × List String) (st : DiscState) : Prop :=
  (∀ p ∈ st.adjs, p ∈ F.1) ∧ (∀ p ∈ st.multi_adjs, p ∈ F.2.1) ∧
  (∀ a ∈ st.addrs, a ∈ F.2.2.1) ∧ (∀ r ∈ st.routers, r ∈ F.2.2.2) ∧
  (∀ r ∈ st.routers, ∃ s, inlookup r st.inprog = some s ∧ 2 ≤ s.card)

/-- The two-hop trace of the C7 instances, as the warts parser annotates it
from the maps read off `c7rows`. -/
def c7trace : List Hop := [⟨"a1", "1", 1, "R"⟩, ⟨"a2", "1", 2, "R"⟩]

/-- A consistent `addr_to_asn` map for the C7 witness. -/
def c7a2a : List (String × String) := [("a1", "1"), ("a2", "1")]

/- ================================================================== -/
/-  THEOREMS                                                          -/
/- ================================================================== -/

theorem bitsLE_length (w n : Nat) : (bitsLE w n).length = w := by
  induction w generalizing n with
  | zero => rfl
  | succ w ih => simp [bitsLE, ih]

theorem valLE_bitsLE (w n : Nat) : valLE (bitsLE w n) = n % 2 ^ w := by
  induction w generalizing n with
  | zero => simp [bitsLE, valLE, Nat.mod_one]
  | succ w ih =>
    have h2 : (0:Nat) < 2 := by norm_num
    simp only [bitsLE, valLE, ih]
    have hsplit : n % 2 ^ (w + 1) = n % 2 + 2 * (n / 2 % 2 ^ w) := by
      conv_lhs => rw [show n = 2 * (n / 2) + n % 2 from (Nat.div_add_mod' n 2).symm ▸ by omega]
      rw [pow_succ, mul_comm (2 ^ w) 2]
      rw [Nat.add_mod, Nat.mul_mod_mul_left]
      have hlt : 2 * (n / 2 % 2 ^ w) + n % 2 % (2 * 2 ^ w) < 2 * 2 ^ w := by
        have := Nat.mod_lt (n / 2) (show 0 < 2 ^ w from Nat.pos_pow_of_pos w h2)
        have := Nat.mod_lt n h2
        have : n % 2 % (2 * 2 ^ w) ≤ n % 2 := Nat.mod_le _ _
        omega
      rw [Nat.mod_eq_of_lt hlt]
      have : n % 2 % (2 * 2 ^ w) = n % 2 := by
        apply Nat.mod_eq_of_lt
        have := Nat.mod_lt n h2
        have : (2:Nat) ≤ 2 * 2 ^ w := by
          have := Nat.pos_pow_of_pos w h2
          omega
        omega
      omega
    rw [hsplit]
    rcases Nat.mod_two_eq_zero_or_one n with h | h <;> simp [h]

theorem bitsLE_append (b a n : Nat) :
    bitsLE (b + a) n = bitsLE b n ++ bitsLE a (n / 2 ^ b) := by
  induction b generalizing n with
  | zero => simp [bitsLE]
  | succ b ih =>
    have hdd : n / 2 / 2 ^ b = n / 2 ^ (b + 1) := by
      rw [Nat.div_div_eq_div_mul, pow_succ, mul_comm]
    rw [show b + 1 + a = (b + a) + 1 from by omega]
    simp only [bitsLE, List.cons_append]
    rw [ih (n / 2), hdd]

theorem bitsBE_decomp (b a n : Nat) :
    bitsBE (b + a) n = bitsBE a (n / 2 ^ b) ++ bitsBE b n := by
  simp [bitsBE, bitsLE_append b a n, List.reverse_append]

theorem valBE_bitsBE (w m : Nat) : valBE (bitsBE w m) = m % 2 ^ w := by
  simp [valBE, bitsBE, List.reverse_reverse, valLE_bitsLE]

theorem bitsBE_length (w n : Nat) : (bitsBE w n).length = w := by
  simp [bitsBE, bitsLE_length]

theorem bitsLE_take_zero {k w n : Nat} (hk : k ≤ w) (hz : n % 2 ^ k = 0) :
    (bitsLE w n).take k = List.replicate k false := by
  induction k generalizing w n with
  | zero => simp
  | succ k ih =>
    obtain ⟨w', rfl⟩ : ∃ w', w = w' + 1 := ⟨w - 1, by omega⟩
    obtain ⟨m, hm⟩ : 2 ^ (k + 1) ∣ n := Nat.dvd_of_mod_eq_zero hz
    have hmod2 : n % 2 = 0 := by
      have : (2:Nat) ∣ n := dvd_trans (dvd_pow_self 2 (Nat.succ_ne_zero k)) ⟨m, hm⟩
      omega
    have hdiv : n / 2 = 2 ^ k * m := by
      subst hm; rw [pow_succ, mul_comm (2 ^ k) 2, Nat.mul_assoc, Nat.mul_div_cancel_left _ (by norm_num : (0:Nat) < 2)]
    have hz' : (n / 2) % 2 ^ k = 0 := by
      rw [hdiv]; exact Nat.mul_mod_right _ _
    simp only [bitsLE, List.take_succ_cons, List.replicate_succ, List.cons.injEq]
    exact ⟨by simp [hmod2], ih (by omega) hz'⟩

theorem take_append_len8 (x y : List Bool) (h : x.length = 8) : (x ++ y).take 8 = x := by
  rw [← h, List.take_left]

theorem drop_append_len8 (x y : List Bool) (h : x.length = 8) : (x ++ y).drop 8 = y := by
  rw [← h, List.drop_left]

theorem get_binary_string_pad {addr len : Nat} (hlen : len ≤ 32)
    (hmask : addr % 2 ^ (32 - len) = 0) :
    get_binary_string addr len ++ get_0_string (32 - len) = bitsBE 32 addr := by
  set k := 32 - len with hk
  have hLE := @bitsLE_take_zero k 32 addr (by omega) hmask
  have hsplit : bitsLE 32 addr = (bitsLE 32 addr).take k ++ (bitsLE 32 addr).drop k :=
    (List.take_append_drop k _).symm
  have hlenrev : ((bitsLE 32 addr).drop k).reverse.length = len := by
    simp [List.length_drop, bitsLE_length]; omega
  have hbe : bitsBE 32 addr = ((bitsLE 32 addr).drop k).reverse ++ List.replicate k false := by
    rw [bitsBE]
    conv_lhs => rw [hsplit]
    rw [List.reverse_append, hLE, List.reverse_replicate]
  have htake : get_binary_string addr len = ((bitsLE 32 addr).drop k).reverse := by
    rw [get_binary_string, hbe, ← hlenrev, List.take_left]
  rw [htake, hbe, get_0_string]

/-- C9 helper: the four octet chunks of the padded 32-bit string. -/
theorem padded_chunks (addr : Nat) :
    (bitsBE 32 addr).take 8 = bitsBE 8 (addr / 2 ^ 24) ∧
    ((bitsBE 32 addr).drop 8).take 8 = bitsBE 8 (addr / 2 ^ 16) ∧
    ((bitsBE 32 addr).drop 16).take 8 = bitsBE 8 (addr / 2 ^ 8) ∧
    ((bitsBE 32 addr).drop 24).take 8 = bitsBE 8 addr := by
  have e1 : bitsBE 32 addr = bitsBE 8 (addr / 2 ^ 24) ++ bitsBE 24 addr :=
    bitsBE_decomp 24 8 addr
  have e2 : bitsBE 24 addr = bitsBE 8 (addr / 2 ^ 16) ++ bitsBE 16 addr :=
    bitsBE_decomp 16 8 addr
  have e3 : bitsBE 16 addr = bitsBE 8 (addr / 2 ^ 8) ++ bitsBE 8 addr :=
    bitsBE_decomp 8 8 addr
  have l1 := bitsBE_length 8 (addr / 2 ^ 24)
  have l2 := bitsBE_length 8 (addr / 2 ^ 16)
  have l3 := bitsBE_length 8 (addr / 2 ^ 8)
  have t1 : (bitsBE 32 addr).take 8 = bitsBE 8 (addr / 2 ^ 24) := by
    rw [e1, take_append_len8 _ _ l1]
  have d1 : (bitsBE 32 addr).drop 8 = bitsBE 24 addr := by
    rw [e1, drop_append_len8 _ _ l1]
  have t2 : ((bitsBE 32 addr).drop 8).take 8 = bitsBE 8 (addr / 2 ^ 16) := by
    rw [d1, e2, take_append_len8 _ _ l2]
  have d2 : (bitsBE 24 addr).drop 8 = bitsBE 16 addr := by
    rw [e2, drop_append_len8 _ _ l2]
  have d3 : (bitsBE 16 addr).drop 8 = bitsBE 8 addr := by
    rw [e3, drop_append_len8 _ _ l3]
  have d16 : (bitsBE 32 addr).drop 16 = bitsBE 16 addr := by
    rw [show (16:Nat) = 8 + 8 by norm_num, ← List.drop_drop, d1, d2]
  have t3 : ((bitsBE 32 addr).drop 16).take 8 = bitsBE 8 (addr / 2 ^ 8) := by
    rw [d16, e3, take_append_len8 _ _ l3]
  have d24 : (bitsBE 32 addr).drop 24 = bitsBE 8 addr := by
    rw [show (24:Nat) = 8 + 16 by norm_num, ← List.drop_drop, d1,
        show (16:Nat) = 8 + 8 by norm_num, ← List.drop_drop, d2, d3]
  have t4 : ((bitsBE 32 addr).drop 24).take 8 = bitsBE 8 addr := by
    rw [d24]
    exact List.take_of_length_le (le_of_eq (bitsBE_length 8 addr))
  exact ⟨t1, t2, t3, t4⟩

/-- C9: for every valid canonical prefix (IPv4 CIDR a.b.c.d/l with 8 <= l <= 24,
base address masked), `get_prefix_from_binary (get_binary_string prefix)` equals
the original prefix: the octets and mask round-trip exactly, hence so does the
rendered `a.b.c.d/l` string. -/
theorem C9_binary_roundtrip (addr len : Nat)
    (h32 : addr < 2 ^ 32) (h8 : 8 ≤ len) (h24 : len ≤ 24)
    (hmask : addr % 2 ^ (32 - len) = 0) :
    get_prefix_from_binary (get_binary_string addr len) = (octets addr, len) ∧
    render_pfx (get_prefix_from_binary (get_binary_string addr len)) =
      render_pfx (octets addr, len) := by
  have hlen : (get_binary_string addr len).length = len := by
    simp [get_binary_string, List.length_take, bitsBE_length]; omega
  have hpad := @get_binary_string_pad addr len (by omega) hmask
  obtain ⟨c1, c2, c3, c4⟩ := padded_chunks addr
  have hmain : get_prefix_from_binary (get_binary_string addr len) = (octets addr, len) := by
    simp only [get_prefix_from_binary, hlen, hpad, c1, c2, c3, c4, valBE_bitsBE, octets]
    norm_num
  exact ⟨hmain, by rw [hmain]⟩

/-- Witness for C9 at the concrete canonical prefix 10.0.0.0/22. -/
theorem C9_binary_roundtrip_witness :
    ((10 * 2 ^ 24 : Nat) < 2 ^ 32 ∧ (10 * 2 ^ 24 : Nat) % 2 ^ (32 - 22) = 0) ∧
    get_prefix_from_binary (get_binary_string (10 * 2 ^ 24) 22) = (octets (10 * 2 ^ 24), 22) :=
  ⟨⟨by norm_num, by norm_num⟩,
   (C9_binary_roundtrip (10 * 2 ^ 24) 22 (by norm_num) (by norm_num) (by norm_num)
     (by norm_num)).1⟩

/- ------------------------------------------------------------------ -/
/-  C10 lemmas                                                        -/
/- ------------------------------------------------------------------ -/

theorem gpn_go_skip (A : String) (full : List String) (dir : Int) :
    ∀ (pre : List String) (i : Nat) (rest : List String), (∀ x ∈ pre, x ≠ A) →
    gpn_go A full dir i (pre ++ rest) = gpn_go A full dir (i + pre.length) rest := by
  intro pre
  induction pre with
  | nil => intro i rest _; simp
  | cons a pre ih =>
    intro i rest hne
    have ha : a ≠ A := hne a (by simp)
    have h1 : gpn_go A full dir i ((a :: pre) ++ rest) = gpn_go A full dir (i + 1) (pre ++ rest) := by
      simp [gpn_go, ha]
    rw [h1, ih (i + 1) rest (fun x hx => hne x (by simp [hx]))]
    have h2 : i + 1 + pre.length = i + (a :: pre).length := by simp; omega
    rw [h2]

theorem mem_decomp_first {A : String} {l : List String} (h : A ∈ l) :
    ∃ s t, l = s ++ A :: t ∧ A ∉ s := by
  induction l with
  | nil => simp at h
  | cons a l ih =>
    by_cases ha : a = A
    · exact ⟨[], l, by simp [ha], by simp⟩
    · have hmem : A ∈ l := by
        rcases List.mem_cons.mp h with h1 | h1
        · exact absurd h1.symm ha
        · exact h1
      obtain ⟨s, t, hst, hs⟩ := ih hmem
      refine ⟨a :: s, t, by simp [hst], ?_⟩
      intro hmem2
      rcases List.mem_cons.mp hmem2 with h1 | h1
      · exact ha h1.symm
      · exact hs h1

theorem gpn_not_mem {A : String} {path : List String} {dir : Int} (h : A ∉ path) :
    get_prev_or_next_as A path dir = "" := by
  have hskip := gpn_go_skip A path dir path 0 [] (fun x hx he => h (he ▸ hx))
  rw [get_prev_or_next_as]
  calc gpn_go A path dir 0 path
      = gpn_go A path dir 0 (path ++ []) := by simp
    _ = gpn_go A path dir (0 + path.length) [] := hskip
    _ = "" := rfl

theorem gpn_first_occurrence (A : String) (path : List String) (dir : Int)
    (s t : List String) (hst : path = s ++ A :: t) (hs : A ∉ s) :
    get_prev_or_next_as A path dir =
      (if (s.length : Int) + dir < 0 ∨ (s.length : Int) + dir ≥ (path.length : Int) then A
       else ((path.get? ((s.length : Int) + dir).toNat).getD "")) := by
  subst hst
  rw [get_prev_or_next_as,
    gpn_go_skip A (s ++ A :: t) dir s 0 (A :: t) (fun x hx he => hs (he ▸ hx))]
  simp [gpn_go]

theorem gpn_mem_ne_empty {A : String} {path : List String} {dir : Int}
    (hmem : A ∈ path) (hnb : ∀ x ∈ path, x ≠ "") :
    get_prev_or_next_as A path dir ≠ "" := by
  obtain ⟨s, t, hst, hs⟩ := mem_decomp_first hmem
  rw [gpn_first_occurrence A path dir s t hst hs]
  by_cases hc : (s.length : Int) + dir < 0 ∨ (s.length : Int) + dir ≥ (path.length : Int)
  · simp only [if_pos hc]
    exact hnb A hmem
  · simp only [if_neg hc]
    push_neg at hc
    have hlt : ((s.length : Int) + dir).toNat < path.length := by omega
    rw [List.get?_eq_get hlt]
    simp only [Option.getD_some]
    exact hnb _ (path.get_mem _ hlt)

theorem next_hop_insert_mono (path : List String) (dir : Int) :
    ∀ (l : List String) (acc : List (String × String)) (p : String × String),
    p ∈ acc → p ∈ l.foldl (next_hop_insert path dir) acc := by
  intro l
  induction l with
  | nil => intro acc p hp; exact hp
  | cons a l ih =>
    intro acc p hp
    simp only [List.foldl_cons]
    apply ih
    rw [next_hop_insert]
    by_cases ht : get_prev_or_next_as a path dir ≠ ""
    · simp only [if_pos ht]
      exact List.mem_append.mpr (Or.inl hp)
    · simp only [if_neg ht]
      exact hp

theorem next_hop_insert_vals (path : List String) (dir : Int) :
    ∀ (l : List String) (acc : List (String × String)),
    (∀ p ∈ acc, p.2 = get_prev_or_next_as p.1 path dir) →
    ∀ p ∈ l.foldl (next_hop_insert path dir) acc,
      p.2 = get_prev_or_next_as p.1 path dir := by
  intro l
  induction l with
  | nil => intro acc hacc p hp; exact hacc p hp
  | cons a l ih =>
    intro acc hacc p hp
    simp only [List.foldl_cons] at hp
    refine ih _ ?_ p hp
    intro q hq
    rw [next_hop_insert] at hq
    by_cases ht : get_prev_or_next_as a path dir ≠ ""
    · simp only [if_pos ht] at hq
      rcases List.mem_append.mp hq with h1 | h1
      · exact hacc q h1
      · have hq2 := List.mem_singleton.mp h1
        subst hq2
        rfl
    · simp only [if_neg ht] at hq
      exact hacc q hq

/-- C10: `get_prev_or_next_as` returns the empty string iff the AS of interest
does not occur in the path; when it occurs and its neighbour in direction
`dir` falls outside the path (at the first occurrence), it returns the AS of
interest itself, and `get_Rib_entry` consequently maps the AS of interest to
itself in `as_to_next_hop_AS` instead of omitting the entry.  The hypothesis
that the path tokens are nonempty strings reflects that an AS path is a
blank-separated sequence of ASN texts. -/
theorem C10_prev_next_boundary (A : String) (path : List String) (dir : Int)
    (hnb : ∀ x ∈ path, x ≠ "") :
    (get_prev_or_next_as A path dir = "" ↔ A ∉ path) ∧
    (∀ s t, path = s ++ A :: t → A ∉ s →
      ((s.length : Int) + dir < 0 ∨ (s.length : Int) + dir ≥ (path.length : Int)) →
      get_prev_or_next_as A path dir = A) ∧
    (∀ s t, path = s ++ A :: t → A ∉ s →
      ((s.length : Int) + dir < 0 ∨ (s.length : Int) + dir ≥ (path.length : Int)) →
      ∀ ases, A ∈ ases →
        alookup A (get_Rib_entry path ases dir).as_to_next_hop_AS = some A) := by
  have hbound : ∀ s t, path = s ++ A :: t → A ∉ s →
      ((s.length : Int) + dir < 0 ∨ (s.length : Int) + dir ≥ (path.length : Int)) →
      get_prev_or_next_as A path dir = A := by
    intro s t hst hs hout
    rw [gpn_first_occurrence A path dir s t hst hs, if_pos hout]
  refine ⟨⟨fun he => ?_, fun hni => gpn_not_mem hni⟩, hbound, ?_⟩
  · by_contra hmem
    exact (gpn_mem_ne_empty hmem hnb) he
  · intro s t hst hs hout ases hA
    have hgpn : get_prev_or_next_as A path dir = A := hbound s t hst hs hout
    have hAne : A ≠ "" := hnb A (by rw [hst]; simp)
    have hmem : ∀ (l : List String) (acc : List (String × String)), A ∈ l →
        (A, A) ∈ l.foldl (next_hop_insert path dir) acc := by
      intro l
      induction l with
      | nil => intro acc h; simp at h
      | cons a l ih =>
        intro acc hAl
        simp only [List.foldl_cons]
        rcases List.mem_cons.mp hAl with h1 | h1
        · subst h1
          refine next_hop_insert_mono path dir l _ (A, A) ?_
          rw [next_hop_insert]
          simp only [hgpn, if_pos (show A ≠ "" from hAne)]
          exact List.mem_append.mpr (Or.inr (by simp))
        · exact ih _ h1
    have hfindsome :
        (((ases.foldl (next_hop_insert path dir) []).find? (fun p => p.1 == A))).isSome := by
      apply List.find?_isSome.mpr
      exact ⟨(A, A), hmem ases [] hA, by simp⟩
    obtain ⟨p, hp⟩ := Option.isSome_iff_exists.mp hfindsome
    have hkey : p.1 = A := by
      have := List.find?_some hp
      simpa using this
    have hpmem := List.mem_of_find?_eq_some hp
    have hval := next_hop_insert_vals path dir ases [] (by simp) p hpmem
    rw [get_Rib_entry]
    simp only [alookup]
    rw [hp]
    simp only [Option.map_some']
    rw [hval, hkey, hgpn]

/-- Witness for C10 at a concrete boundary occurrence: path X Y, interest Y,
direction +1 (Y is the last AS of the path). -/
theorem C10_prev_next_boundary_witness :
    (∀ x ∈ ["X", "Y"], x ≠ "") ∧
    alookup "Y" (get_Rib_entry ["X", "Y"] ["Y"] 1).as_to_next_hop_AS = some "Y" :=
  ⟨by decide,
   (C10_prev_next_boundary "Y" ["X", "Y"] 1 (by decide)).2.2 ["X"] [] (by decide) (by decide)
     (by decide) ["Y"] (by decide)⟩

/- ------------------------------------------------------------------ -/
/-  C3 lemmas                                                         -/
/- ------------------------------------------------------------------ -/

theorem limits_inv_append (s : List String) (limits : List AS_limit)
    (probes : List String) (asn : String) (h : limits_inv s limits) :
    limits_inv (s ++ probes) (limits ++ [⟨asn, (s ++ probes).length⟩]) := by
  obtain ⟨hch, hb, hn, hl⟩ := h
  refine ⟨?_, ?_, ?_, ?_⟩
  · rw [List.chain'_append]
    refine ⟨hch, List.chain'_singleton _, ?_⟩
    intro x hx y hy
    simp only [List.head?_cons, Option.mem_def, Option.some.injEq] at hy
    subst hy
    rw [Option.mem_def] at hx
    have := hl x hx
    simp only [List.length_append]
    omega
  · intro e he
    rcases List.mem_append.mp he with h1 | h1
    · have := hb e h1
      simp only [List.length_append]
      omega
    · have := List.mem_singleton.mp h1
      subst this
      simp
  · intro hc
    rw [List.getLast?_concat] at hc
    exact absurd hc (by simp)
  · intro e he
    rw [List.getLast?_concat] at he
    have := Option.some.inj he
    subst this
    rfl

theorem add_AS_probes_cons (s : List String) (a : String) (ases : List String)
    (limits : List AS_limit) (m : List (String × List String)) (gp : String → String) :
    add_AS_probes s (a :: ases) limits m gp =
      match plookup a m with
      | some probes => add_AS_probes (s ++ probes.map gp) ases
          (limits ++ [⟨a, (s ++ probes.map gp).length⟩]) m gp
      | none => add_AS_probes s ases limits m gp := by
  cases hpl : plookup a m <;> simp [add_AS_probes, List.foldl_cons, hpl]

theorem add_AS_probes_inv : ∀ (ases : List String) (s : List String)
    (limits : List AS_limit) (m : List (String × List String)) (gp : String → String),
    limits_inv s limits →
    limits_inv (add_AS_probes s ases limits m gp).1 (add_AS_probes s ases limits m gp).2 := by
  intro ases
  induction ases with
  | nil =>
    intro s limits m gp h
    simpa [add_AS_probes] using h
  | cons a ases ih =>
    intro s limits m gp h
    rw [add_AS_probes_cons]
    cases hpl : plookup a m with
    | none => exact ih s limits m gp h
    | some probes => exact ih _ _ m gp (limits_inv_append s limits (probes.map gp) a h)

theorem run_strategy_ops_go_inv : ∀ (ops : List StratOp) (s : List String)
    (limits : List AS_limit), limits_inv s limits →
    limits_inv ((ops.foldl (fun acc op =>
       match op with
       | .push probes asn => (acc.1 ++ probes, acc.2 ++ [⟨asn, (acc.1 ++ probes).length⟩])
       | .addAS ases m gp => add_AS_probes acc.1 ases acc.2 m gp) (s, limits)).1)
      ((ops.foldl (fun acc op =>
       match op with
       | .push probes asn => (acc.1 ++ probes, acc.2 ++ [⟨asn, (acc.1 ++ probes).length⟩])
       | .addAS ases m gp => add_AS_probes acc.1 ases acc.2 m gp) (s, limits)).2) := by
  intro ops
  induction ops with
  | nil => intro s limits h; exact h
  | cons op ops ih =>
    intro s limits h
    cases op with
    | push probes asn =>
      simp only [List.foldl_cons]
      exact ih _ _ (limits_inv_append s limits probes asn h)
    | addAS ases m gp =>
      simp only [List.foldl_cons]
      have h2 := add_AS_probes_inv ases s limits m gp h
      have := ih (add_AS_probes s ases limits m gp).1 (add_AS_probes s ases limits m gp).2 h2
      simpa using this

theorem run_strategy_ops_inv (ops : List StratOp) :
    limits_inv (run_strategy_ops ops).1 (run_strategy_ops ops).2 := by
  have h0 : limits_inv [] [] := ⟨List.chain'_nil, by simp, fun _ => rfl, by simp⟩
  exact run_strategy_ops_go_inv ops [] [] h0

theorem concat_aux (s : List String) : ∀ (cuts : List Nat) (prev : Nat),
    prev ≤ s.length → (∀ c ∈ cuts, c ≤ s.length) → List.Chain' (· ≤ ·) (prev :: cuts) →
    (cuts.foldl (fun acc c => (acc.1 ++ ((s.drop acc.2).take (c - acc.2)), c))
      (s.take prev, prev)).1 = s.take (((prev :: cuts).getLast?).getD 0) := by
  intro cuts
  induction cuts with
  | nil =>
    intro prev _ _ _
    simp
  | cons c cuts ih =>
    intro prev hprev hb hch
    have hpc : prev ≤ c := (List.chain'_cons.mp hch).1
    have hcl : c ≤ s.length := hb c (by simp)
    have hstep : s.take prev ++ ((s.drop prev).take (c - prev)) = s.take c := by
      rw [← List.take_add]
      congr 1
      omega
    simp only [List.foldl_cons, hstep]
    rw [List.getLast?_cons_cons]
    exact ih c hcl (fun x hx => hb x (by simp [hx])) (List.chain'_cons.mp hch).2

theorem concat_segments_inv (s : List String) (limits : List AS_limit)
    (h : limits_inv s limits) : concat_segments s (limits.map AS_limit.limit) = s := by
  obtain ⟨hch, hb, hn, hl⟩ := h
  cases hlim : limits.getLast? with
  | none =>
    have hnil : limits = [] := List.getLast?_eq_none_iff.mp hlim
    subst hnil
    simp [concat_segments, hn rfl]
  | some e =>
    have hle : e.limit = s.length := hl e hlim
    have hne : limits ≠ [] := by
      intro hc; subst hc; simp at hlim
    cases hcuts : limits.map AS_limit.limit with
    | nil => exact absurd (List.map_eq_nil_iff.mp hcuts) hne
    | cons c cuts =>
      have hchain : List.Chain' (· ≤ ·) (0 :: c :: cuts) := by
        rw [List.chain'_cons]
        refine ⟨Nat.zero_le c, ?_⟩
        rw [← hcuts]
        exact (List.chain'_map AS_limit.limit).mpr hch
      have hbound : ∀ x ∈ c :: cuts, x ≤ s.length := by
        rw [← hcuts]
        intro x hx
        obtain ⟨a, ha, rfl⟩ := List.mem_map.mp hx
        exact hb a ha
      have hmain := concat_aux s (c :: cuts) 0 (Nat.zero_le _) hbound hchain
      have hlast : (((0:Nat) :: c :: cuts).getLast?).getD 0 = s.length := by
        rw [List.getLast?_cons_cons, ← hcuts, List.getLast?_map, hlim]
        simp [hle]
      rw [hlast] at hmain
      have h0 : (List.take 0 s, (0:Nat)) = (([] : List String), (0:Nat)) := by simp
      rw [h0, List.take_length] at hmain
      rw [concat_segments]
      exact hmain

theorem add_AS_probes_absent : ∀ (ases : List String) (s : List String)
    (limits : List AS_limit) (m : List (String × List String)) (gp : String → String)
    (e : AS_limit), e ∈ (add_AS_probes s ases limits m gp).2 →
    e ∈ limits ∨ (plookup e.asn m).isSome := by
  intro ases
  induction ases with
  | nil =>
    intro s limits m gp e he
    simp only [add_AS_probes, List.foldl_nil] at he
    exact Or.inl he
  | cons a ases ih =>
    intro s limits m gp e he
    rw [add_AS_probes_cons] at he
    cases hpl : plookup a m with
    | none =>
      rw [hpl] at he
      exact ih _ _ _ _ e he
    | some probes =>
      rw [hpl] at he
      rcases ih _ _ _ _ e he with h1 | h1
      · rcases List.mem_append.mp h1 with h2 | h2
        · exact Or.inl h2
        · have := List.mem_singleton.mp h2
          subst this
          right
          simp [hpl]
      · exact Or.inr h1

/-- C3: for every AS of interest and every strategy of the menu (each strategy
builds its result from the empty pair by `push`/`addAS` steps, see `StratOp`),
the returned `as_limits` list has non-decreasing limit values, its last
element's limit equals the length of the returned target list (and without
limit entries the target list is empty), the concatenation of the target
segments delimited by consecutive limits equals the target list, and inside
`add_AS_probes` an AS absent from the probes map contributes no limit
entry. -/
theorem C3_strategy_limits_concat (ops : List StratOp) :
    List.Chain' (fun a b => a.limit ≤ b.limit) (run_strategy_ops ops).2 ∧
    ((run_strategy_ops ops).2.getLast? = none → (run_strategy_ops ops).1 = []) ∧
    (∀ e, (run_strategy_ops ops).2.getLast? = some e →
      e.limit = (run_strategy_ops ops).1.length) ∧
    concat_segments (run_strategy_ops ops).1 ((run_strategy_ops ops).2.map AS_limit.limit)
      = (run_strategy_ops ops).1 ∧
    (∀ (s ases : List String) (limits : List AS_limit) (m : List (String × List String))
      (gp : String → String) (e : AS_limit),
      e ∈ (add_AS_probes s ases limits m gp).2 → e ∈ limits ∨ (plookup e.asn m).isSome) := by
  have h := run_strategy_ops_inv ops
  exact ⟨h.1, h.2.2.1, h.2.2.2, concat_segments_inv _ _ h,
    fun s ases limits m gp e he => add_AS_probes_absent ases s limits m gp e he⟩

/- ------------------------------------------------------------------ -/
/-  C5 lemmas                                                         -/
/- ------------------------------------------------------------------ -/

theorem seq_go_succ (τ : ℚ) (stop span : Nat) (disc : Nat → Bool) (p k fuel : Nat) :
    seq_go τ stop span disc p k (fuel + 1) =
      if k < stop then
        if disc k then seq_go τ stop span disc 0 (k + 1) fuel
        else
          if (((p + 1 : Nat) : ℚ) / ((span : Nat) : ℚ) > τ) then (k + 1, true)
          else seq_go τ stop span disc (p + 1) (k + 1) fuel
      else (k, false) := rfl

theorem c5_ratio (p : Nat) : ((p : ℚ) / ((100 : Nat) : ℚ) > (1/10 : ℚ)) ↔ 10 < p := by
  have h100 : ((100 : Nat) : ℚ) = (100 : ℚ) := by norm_cast
  rw [h100, gt_iff_lt, div_lt_div_iff₀ (by norm_num : (0:ℚ) < 10) (by norm_num : (0:ℚ) < 100)]
  constructor
  · intro h
    have h2 : (10 : ℚ) < p := by linarith
    exact_mod_cast h2
  · intro h
    have h2 : (10 : ℚ) < p := by exact_mod_cast h
    linarith

theorem c5_steps (disc : Nat → Bool) (h : ∀ i, i < 11 → disc i = false) :
    ∀ m, m ≤ 10 → seq_go (1/10 : ℚ) 100 100 disc (10 - m) (10 - m) (100 - (10 - m)) = (11, true) := by
  intro m
  induction m with
  | zero =>
    have hd : disc 10 = false := h 10 (by norm_num)
    intro _
    simp only [Nat.sub_zero]
    rw [show (100 - 10 : Nat) = 89 + 1 from by norm_num]
    rw [seq_go_succ]
    rw [if_pos (show (10:Nat) < 100 by norm_num), hd]
    simp only [Bool.false_eq_true, if_false]
    rw [if_pos (show (((10 + 1 : Nat)) : ℚ) / ((100 : Nat) : ℚ) > (1/10 : ℚ) by
      rw [c5_ratio]; norm_num)]
  | succ m ih =>
    intro hm
    have hd : disc (10 - (m + 1)) = false := h _ (by omega)
    have e2 : (100 - (10 - (m + 1)) : Nat) = (100 - (10 - m)) + 1 := by omega
    have e3 : (10 - (m + 1) + 1 : Nat) = 10 - m := by omega
    have hratio : ¬((((10 - (m + 1) + 1 : Nat)) : ℚ) / ((100 : Nat) : ℚ) > (1/10 : ℚ)) := by
      rw [c5_ratio]
      omega
    rw [e2, seq_go_succ]
    rw [if_pos (show (10 - (m+1) : Nat) < 100 by omega), hd]
    simp only [Bool.false_eq_true, if_false]
    rw [if_neg hratio, e3]
    exact ih (by omega)

/-- C5 (amended): in the sequential scheduler, for an AS spanning 100 probes
with plateau threshold tau = 0.1, the break to the next AS fires at the 11th
consecutive non-discovery probe from the start of the AS (at the 10th probe
the ratio equals tau and does not exceed it), and the AS's stop flag is
recorded (exactly once, by construction of the loop, which breaks as soon as
the flag is set). -/
theorem C5_sequential_plateau_amended (disc : Nat → Bool)
    (h : ∀ i, i < 11 → disc i = false) :
    anaximander_sequential_AS (1/10 : ℚ) 0 100 disc = (11, true) := by
  have hsteps := c5_steps disc h 10 (le_refl 10)
  simpa [anaximander_sequential_AS] using hsteps

/-- Witness for the amended C5 at the all-non-discovery probe sequence. -/
theorem C5_sequential_plateau_amended_witness :
    (∀ i, i < 11 → (fun _ => false) i = false) ∧
    anaximander_sequential_AS (1/10 : ℚ) 0 100 (fun _ => false) = (11, true) :=
  ⟨fun _ _ => rfl, C5_sequential_plateau_amended (fun _ => false) (fun _ _ => rfl)⟩

/-- Counterexample to C5 as stated: with 100 probes, tau = 0.1 and only
non-discovery probes, the scheduler does not break after 10 consecutive
non-discovery probes; it breaks only after consuming an 11th probe (at
plateau 10 the ratio 10/100 equals tau and does not exceed it). -/
theorem C5_sequential_plateau_counterexample :
    anaximander_sequential_AS (1/10 : ℚ) 0 100 (fun _ => false) = (11, true) ∧
    anaximander_sequential_AS (1/10 : ℚ) 0 100 (fun _ => false) ≠ (10, true) := by
  have hsteps := c5_steps (fun _ => false) (fun _ _ => rfl) 10 (le_refl 10)
  have h1 : anaximander_sequential_AS (1/10 : ℚ) 0 100 (fun _ => false) = (11, true) := by
    simpa [anaximander_sequential_AS] using hsteps
  refine ⟨h1, ?_⟩
  rw [h1]
  decide

/- ------------------------------------------------------------------ -/
/-  C8 theorems                                                       -/
/- ------------------------------------------------------------------ -/

/-- Counterexample to C8 as stated: for ip2as input
{10.0.0.0/22 -> AS1, 10.0.0.0/24 -> AS2} the more-specific AS2 wins the
`prefix24_as` mapping for 10.0.0.0/24, but the tile is NOT removed from
`as_24prefixes[AS1]`: it remains a member of the /24 set of both AS1 and AS2,
so the more-specific source prefix does not win the membership in
`as_24prefixes[as]`. -/
theorem C8_ip2as_expansion_counterexample :
    ((167772160, 24) ∈ as24_lookup "AS1"
      (read_ip2as [((167772160, 22), "AS1"), ((167772160, 24), "AS2")]).as_24prefixes) ∧
    pfx_lookup (167772160, 24)
      (read_ip2as [((167772160, 22), "AS1"), ((167772160, 24), "AS2")]).prefix24_as
      = some "AS2" := by
  constructor
  · decide
  · decide

/-- C8 (amended): `read_ip2as` expands source prefixes into /24 tiles in
ascending mask-length order, and wherever tiles overlap the more-specific
source prefix's AS wins the `prefix24_as` mapping, while `as_24prefixes`
keeps the tile under every covering source prefix's AS: for input
{10.0.0.0/22 -> AS1, 10.0.0.0/24 -> AS2}, `prefix24_as[10.0.0.0/24] = AS2`,
`prefix24_as[10.0.1.0/24] = AS1`, and 10.0.0.0/24 belongs to the /24 sets of
both AS1 and AS2 (167772160 is 10.0.0.0, 167772416 is 10.0.1.0). -/
theorem C8_ip2as_expansion_amended :
    pfx_lookup (167772160, 24)
      (read_ip2as [((167772160, 22), "AS1"), ((167772160, 24), "AS2")]).prefix24_as
      = some "AS2" ∧
    pfx_lookup (167772416, 24)
      (read_ip2as [((167772160, 22), "AS1"), ((167772160, 24), "AS2")]).prefix24_as
      = some "AS1" ∧
    ((167772160, 24) ∈ as24_lookup "AS1"
      (read_ip2as [((167772160, 22), "AS1"), ((167772160, 24), "AS2")]).as_24prefixes) ∧
    ((167772160, 24) ∈ as24_lookup "AS2"
      (read_ip2as [((167772160, 22), "AS1"), ((167772160, 24), "AS2")]).as_24prefixes) ∧
    ((167772416, 24) ∈ as24_lookup "AS1"
      (read_ip2as [((167772160, 22), "AS1"), ((167772160, 24), "AS2")]).as_24prefixes) := by
  refine ⟨?_, ?_, ?_, ?_, ?_⟩ <;> decide

/- ------------------------------------------------------------------ -/
/-  C6 lemmas                                                         -/
/- ------------------------------------------------------------------ -/

theorem as_probe_step_stopped_mono (τ : ℚ) (dests : List String) (d : Bool)
    (st : AS_status) (sa : Nat) (h : st.stopped = true) :
    (as_probe_step τ dests d st sa).1.stopped = true := by
  simp only [as_probe_step, launch_as_probing, plateau_update]
  simp [h]

theorem as_probe_step_sa_stopped (τ : ℚ) (dests : List String) (d : Bool)
    (st : AS_status) (sa : Nat) (h : st.stopped = true) :
    (as_probe_step τ dests d st sa).2 = sa := by
  simp only [as_probe_step, launch_as_probing, plateau_update]
  simp [h]

theorem as_probe_step_delta (τ : ℚ) (dests : List String) (d : Bool)
    (st : AS_status) (sa : Nat) :
    (as_probe_step τ dests d st sa).2 =
      sa + (if ((as_probe_step τ dests d st sa).1.stopped = true ∧ st.stopped = false)
            then 1 else 0) := by
  by_cases h : st.stopped = true
  · rw [as_probe_step_sa_stopped τ dests d st sa h]
    simp [h]
  · have hf : st.stopped = false := by
      cases hs : st.stopped
      · rfl
      · exact absurd hs h
    simp only [as_probe_step, launch_as_probing, plateau_update, hf]
    split_ifs <;> simp_all

theorem as_probe_step_sa_le (τ : ℚ) (dests : List String) (d : Bool)
    (st : AS_status) (sa : Nat) :
    sa ≤ (as_probe_step τ dests d st sa).2 ∧ (as_probe_step τ dests d st sa).2 ≤ sa + 1 := by
  rw [as_probe_step_delta τ dests d st sa]
  split_ifs <;> omega

theorem count_stopped_set : ∀ (sts : List AS_status) (i : Nat) (x old : AS_status),
    sts.get? i = some old →
    count_stopped (sts.set i x) + (if old.stopped = true then 1 else 0)
      = count_stopped sts + (if x.stopped = true then 1 else 0) := by
  intro sts
  induction sts with
  | nil => intro i x old h; simp at h
  | cons a sts ih =>
    intro i x old h
    cases i with
    | zero =>
      have ha : old = a := by simpa using h.symm
      subst ha
      simp only [List.set, count_stopped, List.filter_cons]
      rcases Bool.eq_false_or_eq_true old.stopped with ha | ha <;>
        rcases Bool.eq_false_or_eq_true x.stopped with hx | hx <;>
          simp [ha, hx]
    | succ i =>
      have h' : sts.get? i = some old := by simpa using h
      have hih := ih i x old h'
      simp only [List.set, count_stopped, List.filter_cons] at hih ⊢
      rcases Bool.eq_false_or_eq_true a.stopped with ha | ha <;> simp [ha] <;> omega

theorem simstep_count (τ : ℚ) (dests : List String) {s s' : List AS_status × Nat}
    (hstep : SimStep τ dests s s') (hinv : s.2 = count_stopped s.1) :
    s'.2 = count_stopped s'.1 := by
  cases hstep with
  | probe sts sa i d h =>
    have hinv2 : sa = count_stopped sts := hinv
    have hd := as_probe_step_delta τ dests d (sts.get ⟨i, h⟩) sa
    have hcs := count_stopped_set sts i (as_probe_step τ dests d (sts.get ⟨i, h⟩) sa).1
      (sts.get ⟨i, h⟩) (List.get?_eq_get h)
    have hmono := as_probe_step_stopped_mono τ dests d (sts.get ⟨i, h⟩) sa
    show (as_probe_step τ dests d (sts.get ⟨i, h⟩) sa).2
        = count_stopped (sts.set i (as_probe_step τ dests d (sts.get ⟨i, h⟩) sa).1)
    cases ho : (sts.get ⟨i, h⟩).stopped with
    | false =>
      cases hn : (as_probe_step τ dests d (sts.get ⟨i, h⟩) sa).1.stopped with
      | false =>
        simp only [ho, hn] at hd hcs
        simp at hd hcs ⊢
        omega
      | true =>
        simp only [ho, hn] at hd hcs
        simp at hd hcs ⊢
        omega
    | true =>
      have hn := hmono ho
      simp only [ho, hn] at hd hcs
      simp at hd hcs ⊢
      omega

theorem reach_count (τ : ℚ) (dests : List String) (s s' : List AS_status × Nat)
    (h : Relation.ReflTransGen (SimStep τ dests) s s') (h0 : s.2 = count_stopped s.1) :
    s'.2 = count_stopped s'.1 := by
  induction h with
  | refl => exact h0
  | tail _ hs ih => exact simstep_count τ dests hs ih

theorem count_stopped_eq_length_iff (sts : List AS_status) :
    count_stopped sts = sts.length ↔ ∀ st ∈ sts, st.stopped = true := by
  constructor
  · intro h
    have hsub : (sts.filter (fun st => st.stopped)).Sublist sts := List.filter_sublist sts
    have heq := hsub.eq_of_length h
    intro st hst
    have hmem : st ∈ sts.filter (fun st => st.stopped) := by rw [heq]; exact hst
    exact (List.mem_filter.mp hmem).2
  · intro h
    rw [count_stopped, List.filter_eq_self.mpr h]

/-- C6: in the batched-parallel and greedy schedulers (whose probe executions
are exactly sequences of `SimStep`s), from an initial state where no AS is
stopped and `stopped_ases = 0`: the global counter always equals the number
of stopped ASes (so it is incremented exactly once per AS, at its false-to-
true transition), the outer loop's exit condition `stopped_ases = #ASes`
holds exactly when every AS is stopped, an already-stopped AS never
re-increments the counter when its probe counter advances (in particular when
it reaches its end inside `launch_as_probing`), its stopped flag never
reverts, and the counter never decreases at any step. -/
theorem C6_stop_transitions (τ : ℚ) (dests : List String) (init sts : List AS_status)
    (sa : Nat) (hinit : ∀ st ∈ init, st.stopped = false)
    (hreach : Relation.ReflTransGen (SimStep τ dests) (init, 0) (sts, sa)) :
    sa = count_stopped sts ∧
    (sa = sts.length ↔ ∀ st ∈ sts, st.stopped = true) ∧
    (∀ (d : Bool) (st : AS_status) (n : Nat), st.stopped = true →
      (as_probe_step τ dests d st n).1.stopped = true ∧
      (as_probe_step τ dests d st n).2 = n) ∧
    (∀ (d : Bool) (st : AS_status) (n : Nat),
      n ≤ (as_probe_step τ dests d st n).2 ∧ (as_probe_step τ dests d st n).2 ≤ n + 1) := by
  have h0 : (0 : Nat) = count_stopped init := by
    rw [count_stopped]
    have : init.filter (fun st => st.stopped) = [] := by
      rw [List.filter_eq_nil_iff]
      intro st hst
      simp [hinit st hst]
    rw [this]
    rfl
  have hcount := reach_count τ dests (init, 0) (sts, sa) hreach h0
  simp only at hcount
  refine ⟨hcount, ?_, ?_, ?_⟩
  · rw [hcount]
    exact count_stopped_eq_length_iff sts
  · intro d st n h
    exact ⟨as_probe_step_stopped_mono τ dests d st n h, as_probe_step_sa_stopped τ dests d st n h⟩
  · intro d st n
    exact as_probe_step_sa_le τ dests d st n

/-- Witness for C6 at a concrete one-AS initial state with the empty
reachability path. -/
theorem C6_stop_transitions_witness :
    (∀ st ∈ [(⟨"65000", 0, 1, 0, 0, false, 0⟩ : AS_status)], st.stopped = false) ∧
    (0 : Nat) = count_stopped [(⟨"65000", 0, 1, 0, 0, false, 0⟩ : AS_status)] :=
  ⟨by decide,
   (C6_stop_transitions (1/2 : ℚ) [] _ _ 0 (by decide) Relation.ReflTransGen.refl).1⟩

/- ------------------------------------------------------------------ -/
/-  C4 theorems                                                       -/
/- ------------------------------------------------------------------ -/

theorem ov_step_none (g24 : String → String) (tvp : String → Option String)
    (ov : String → String → Finset String) (st : OvState) (p : String)
    (h : tvp (g24 p) = none) :
    remove_overlays_step g24 tvp ov st p = { st with s := insert (g24 p) st.s } := by
  unfold remove_overlays_step; rw [h]

theorem ov_step_skip (g24 : String → String) (tvp : String → Option String)
    (ov : String → String → Finset String) (st : OvState) (p vp : String)
    (h : tvp (g24 p) = some vp) (hm : p ∈ st.seen vp) :
    remove_overlays_step g24 tvp ov st p = st := by
  unfold remove_overlays_step; rw [h]; simp [hm]

theorem ov_step_rec (g24 : String → String) (tvp : String → Option String)
    (ov : String → String → Finset String) (st : OvState) (p vp : String)
    (h : tvp (g24 p) = some vp) (hm : p ∉ st.seen vp) :
    remove_overlays_step g24 tvp ov st p =
      { seen := fun v => if v = vp then st.seen vp ∪ ov vp p else st.seen v,
        s := insert (g24 p) st.s,
        kept := st.kept ++ [(p, vp)] } := by
  unfold remove_overlays_step; rw [h]; simp [hm]

theorem ov_step_s_mono (g24 : String → String) (tvp : String → Option String)
    (ov : String → String → Finset String) (st : OvState) (p : String) :
    st.s ⊆ (remove_overlays_step g24 tvp ov st p).s := by
  intro x hx
  cases htv : tvp (g24 p) with
  | none =>
    rw [ov_step_none g24 tvp ov st p htv]
    exact Finset.mem_insert_of_mem hx
  | some vp =>
    by_cases hm : p ∈ st.seen vp
    · rw [ov_step_skip g24 tvp ov st p vp htv hm]; exact hx
    · rw [ov_step_rec g24 tvp ov st p vp htv hm]
      exact Finset.mem_insert_of_mem hx

theorem ov_foldl_s_mono (g24 : String → String) (tvp : String → Option String)
    (ov : String → String → Finset String) (l : List String) (st : OvState) :
    st.s ⊆ (l.foldl (remove_overlays_step g24 tvp ov) st).s := by
  induction l generalizing st with
  | nil => exact fun x hx => hx
  | cons q l ih =>
    intro x hx
    exact ih (remove_overlays_step g24 tvp ov st q)
      (ov_step_s_mono g24 tvp ov st q hx)

theorem ov_foldl_none (g24 : String → String) (tvp : String → Option String)
    (ov : String → String → Finset String) (p : String) (h : tvp (g24 p) = none) :
    ∀ (l : List String) (st : OvState), p ∈ l →
      g24 p ∈ (l.foldl (remove_overlays_step g24 tvp ov) st).s := by
  intro l
  induction l with
  | nil => intro st hp; cases hp
  | cons q l ih =>
    intro st hp
    rcases List.mem_cons.mp hp with rfl | hq
    · exact ov_foldl_s_mono g24 tvp ov l _
        (by rw [ov_step_none g24 tvp ov st p h]; exact Finset.mem_insert_self _ _)
    · exact ih _ hq

theorem ov_step_inv (g24 : String → String) (tvp : String → Option String)
    (ov : String → String → Finset String) (st : OvState) (p : String)
    (h : OvInv ov st) : OvInv ov (remove_overlays_step g24 tvp ov st p) := by
  obtain ⟨h1, h2⟩ := h
  cases htv : tvp (g24 p) with
  | none => rw [ov_step_none g24 tvp ov st p htv]; exact ⟨h1, h2⟩
  | some vp =>
    by_cases hm : p ∈ st.seen vp
    · rw [ov_step_skip g24 tvp ov st p vp htv hm]; exact ⟨h1, h2⟩
    · rw [ov_step_rec g24 tvp ov st p vp htv hm]
      constructor
      · intro e he
        rcases List.mem_append.mp he with he | he
        · intro x hx
          have hxs := h1 e he hx
          dsimp only
          by_cases hv : e.2 = vp
          · rw [if_pos hv]
            rw [hv] at hxs
            exact Finset.mem_union_left _ hxs
          · rw [if_neg hv]; exact hxs
        · have he' : e = (p, vp) := by simpa using he
          subst he'
          intro x hx
          dsimp only
          rw [if_pos rfl]
          exact Finset.mem_union_right _ hx
      · rw [List.pairwise_append]
        refine ⟨h2, List.pairwise_singleton _ _, ?_⟩
        intro e1 he1 e2 he2
        have he2' : e2 = (p, vp) := by simpa using he2
        subst he2'
        intro hv hp
        have hseen := h1 e1 he1 hp
        rw [hv] at hseen
        exact hm hseen

theorem ov_foldl_inv (g24 : String → String) (tvp : String → Option String)
    (ov : String → String → Finset String) (l : List String) (st : OvState)
    (h : OvInv ov st) :
    OvInv ov (l.foldl (remove_overlays_step g24 tvp ov) st) := by
  induction l generalizing st with
  | nil => exact h
  | cons q l ih => exact ih _ (ov_step_inv g24 tvp ov st q h)

theorem pairwise_filter_len_le_one {α : Type} (l : List α) (R : α → α → Prop)
    (p : α → Bool) (hp : l.Pairwise R)
    (h : ∀ a b, p a = true → p b = true → R a b → False) :
    (l.filter p).length ≤ 1 := by
  have hpf : (l.filter p).Pairwise R := hp.sublist (List.filter_sublist l)
  rcases hfp : l.filter p with _ | ⟨a, _ | ⟨b, t⟩⟩
  · simp
  · simp
  · exfalso
    rw [hfp] at hpf
    have hr : R a b := (List.pairwise_cons.mp hpf).1 b (List.mem_cons_self _ _)
    have hma : a ∈ l.filter p := by rw [hfp]; exact List.mem_cons_self _ _
    have hmb : b ∈ l.filter p := by
      rw [hfp]; exact List.mem_cons_of_mem _ (List.mem_cons_self _ _)
    have ha : p a = true := List.of_mem_filter hma
    have hb : p b = true := List.of_mem_filter hmb
    exact h a b ha hb hr

/-- C4: after the per-AS pass of `remove_overlays` over any enumeration of
the AS's probes, (i) a probe whose /24 has no entry in `target_to_vp` is
always kept, and (ii) for any vantage point `v` and any overlay equivalence
class `ov v q`, at most one recorded probe of the AS has vantage point `v`
and lies in that class — provided the overlay map is class-consistent
(members of a group share that group), which the forwarding-table overlay
groups are by construction. -/
theorem C4_overlay_reduction (g24 : String → String) (tvp : String → Option String)
    (ov : String → String → Finset String) (probes : List String)
    (Hclass : ∀ v a b, b ∈ ov v a → ov v b = ov v a) :
    (∀ p ∈ probes, tvp (g24 p) = none →
      g24 p ∈ (remove_overlays_AS g24 tvp ov probes).s) ∧
    (∀ v q, ((remove_overlays_AS g24 tvp ov probes).kept.filter
        (fun e => decide (e.2 = v) && decide (e.1 ∈ ov v q))).length ≤ 1) := by
  constructor
  · intro p hp h
    exact ov_foldl_none g24 tvp ov p h probes _ hp
  · intro v q
    have hinv : OvInv ov (remove_overlays_AS g24 tvp ov probes) :=
      ov_foldl_inv g24 tvp ov probes _
        ⟨fun e he => absurd he (List.not_mem_nil e), List.Pairwise.nil⟩
    apply pairwise_filter_len_le_one _ _ _ hinv.2
    intro a b ha hb hr
    simp only [Bool.and_eq_true, decide_eq_true_eq] at ha hb
    obtain ⟨hav, haq⟩ := ha
    obtain ⟨hbv, hbq⟩ := hb
    have hcl : ov v a.1 = ov v q := Hclass v q a.1 haq
    have h2 := hr (hav.trans hbv.symm)
    rw [hav, hcl] at h2
    exact h2 hbq

/-- Witness for C4 at a concrete probe list with one overlay group. -/
theorem C4_overlay_reduction_witness :
    (∀ v a b, b ∈ ovW v a → ovW v b = ovW v a) ∧
    ((∀ p ∈ ["a", "b", "c"], tvpW (id p) = none →
        id p ∈ (remove_overlays_AS id tvpW ovW ["a", "b", "c"]).s) ∧
     (∀ v q, ((remove_overlays_AS id tvpW ovW ["a", "b", "c"]).kept.filter
        (fun e => decide (e.2 = v) && decide (e.1 ∈ ovW v q))).length ≤ 1)) :=
  ⟨fun _ _ _ _ => rfl,
   C4_overlay_reduction id tvpW ovW ["a", "b", "c"] (fun _ _ _ _ => rfl)⟩

/- ------------------------------------------------------------------ -/
/-  C1 theorems                                                       -/
/- ------------------------------------------------------------------ -/

theorem rl_step_mem (s : List String) (b : Bool) (x : String) (h : x ∈ s) :
    rl_step (s, b) x = (s, true) := by simp [rl_step, h]

theorem rl_step_not_mem (s : List String) (b : Bool) (x : String) (h : x ∉ s) :
    rl_step (s, b) x = (x :: s, b) := by simp [rl_step, h]

theorem routing_loop_aux :
    ∀ (l s : List String) (b : Bool),
      (l.foldl rl_step (s, b)).2 = false →
      b = false ∧ l.Nodup ∧ ∀ x ∈ l, x ∉ s := by
  intro l
  induction l with
  | nil =>
    intro s b h
    exact ⟨h, List.nodup_nil, fun x hx => absurd hx (List.not_mem_nil x)⟩
  | cons a l ih =>
    intro s b h
    rw [List.foldl_cons] at h
    by_cases hm : a ∈ s
    · rw [rl_step_mem s b a hm] at h
      obtain ⟨hb, -, -⟩ := ih _ _ h
      exact absurd hb (by simp)
    · rw [rl_step_not_mem s b a hm] at h
      obtain ⟨hb, hnd, hni⟩ := ih _ _ h
      refine ⟨hb,
        List.nodup_cons.mpr ⟨fun hal => hni a hal (List.mem_cons_self _ _), hnd⟩, ?_⟩
      intro x hx
      rcases List.mem_cons.mp hx with rfl | hxl
      · exact hm
      · exact fun hxs => hni x hxl (List.mem_cons_of_mem a hxs)

theorem routing_loop_false_nodup (l : List String) (h : routing_loop l = false) :
    l.Nodup := (routing_loop_aux l [] false h).2.1

theorem build_tree_mem_nodup (entries : List Rib_entry) (e : Rib_entry)
    (h : e ∈ build_tree_entries entries) :
    e.as_path.Nodup ∧ List.Chain' (fun a b => a ≠ b) e.as_path := by
  obtain ⟨e0, -, he⟩ := List.mem_filterMap.mp h
  by_cases hl : routing_loop (remove_duplicates_go e0.as_path) = true
  · rw [if_pos hl] at he; cases he
  · rw [if_neg hl] at he
    have hnd : (remove_duplicates_go e0.as_path).Nodup :=
      routing_loop_false_nodup _ (Bool.eq_false_iff.mpr hl)
    have heq := Option.some.inj he
    subst heq
    have hndr : (remove_duplicates_go e0.as_path).reverse.Nodup :=
      List.nodup_reverse.mpr hnd
    exact ⟨hndr, List.Pairwise.chain' hndr⟩

theorem valley_free_h_preserves (rel : String → String → Int) (pivot : String) :
    HPreserves (valley_free_h rel pivot) := by
  intro nh e sel
  unfold valley_free_h
  split_ifs <;> simp

theorem heuristic_check_preserves (rel : String → String → Int) (pivot : String) :
    HPreserves (heuristic_check rel pivot) := by
  intro nh e sel
  unfold heuristic_check
  split_ifs <;> simp

theorem next_hop_popularity_h_preserves (max_next_hop : String) (nb : Int) :
    HPreserves (next_hop_popularity_h max_next_hop nb) := by
  intro nh e sel
  unfold next_hop_popularity_h
  split_ifs <;> simp

theorem shortest_path_h_preserves : HPreserves shortest_path_h := by
  intro nh e sel
  unfold shortest_path_h
  split_ifs <;> simp

theorem most_ases_interest_h_preserves : HPreserves most_ases_interest_h := by
  intro nh e sel
  unfold most_ases_interest_h
  split_ifs <;> simp

theorem run_heuristics_cons (h : HFn) (hs : List HFn) (nh : String)
    (e : Rib_entry) (sel : String × Rib_entry) :
    run_heuristics (h :: hs) nh e sel =
      if (h nh e sel).1 then (h nh e sel).2
      else run_heuristics hs nh e (h nh e sel).2 := rfl

theorem run_heuristics_mem :
    ∀ (hs : List HFn), (∀ h ∈ hs, HPreserves h) →
      ∀ (nh : String) (e : Rib_entry) (sel : String × Rib_entry),
        (run_heuristics hs nh e sel).2 = e ∨
        (run_heuristics hs nh e sel).2 = sel.2 := by
  intro hs
  induction hs with
  | nil => intro _ nh e sel; exact Or.inr rfl
  | cons h hs ih =>
    intro hp nh e sel
    have hph := hp h (List.mem_cons_self _ _)
    have hps : ∀ h' ∈ hs, HPreserves h' :=
      fun h' hh => hp h' (List.mem_cons_of_mem _ hh)
    rw [run_heuristics_cons]
    by_cases hb : (h nh e sel).1 = true
    · rw [if_pos hb]; exact hph nh e sel
    · rw [if_neg hb]
      rcases ih hps nh e ((h nh e sel).2) with h1 | h1
      · exact Or.inl h1
      · rcases hph nh e sel with h2 | h2
        · exact Or.inl (h1.trans h2)
        · exact Or.inr (h1.trans h2)

theorem menu_preserves (rel : String → String → Int) (pivot max_next_hop : String)
    (nb : Int) :
    ∀ h ∈ heuristics_menu rel pivot max_next_hop nb, HPreserves h := by
  intro h hm
  unfold heuristics_menu at hm
  by_cases hp : pivot ≠ ""
  · rw [if_pos hp] at hm
    simp only [List.mem_cons, List.not_mem_nil, or_false] at hm
    rcases hm with rfl | rfl | rfl | rfl | rfl
    · exact valley_free_h_preserves rel pivot
    · exact heuristic_check_preserves rel pivot
    · exact next_hop_popularity_h_preserves max_next_hop nb
    · exact shortest_path_h_preserves
    · exact most_ases_interest_h_preserves
  · rw [if_neg hp] at hm
    simp only [List.mem_cons, List.not_mem_nil, or_false] at hm
    rcases hm with rfl | rfl
    · exact shortest_path_h_preserves
    · exact most_ases_interest_h_preserves

theorem select_fold_mem (rel : String → String → Int) (pivot max_next_hop : String)
    (nb : Int) :
    ∀ (l : List Rib_entry) (acc : Option (String × Rib_entry))
      (sel : String × Rib_entry),
      l.foldl (select_step rel pivot max_next_hop nb) acc = some sel →
      (∃ a, acc = some a ∧ sel.2 = a.2) ∨ sel.2 ∈ l := by
  intro l
  induction l with
  | nil => intro acc sel h; exact Or.inl ⟨sel, h, rfl⟩
  | cons e l ih =>
    intro acc sel h
    rw [List.foldl_cons] at h
    rcases ih _ _ h with ⟨a, ha, hsel⟩ | hmem
    · cases acc with
      | none =>
        simp only [select_step] at ha
        obtain rfl := Option.some.inj ha
        exact Or.inr (by rw [hsel]; exact List.mem_cons_self e l)
      | some a0 =>
        simp only [select_step] at ha
        obtain rfl := Option.some.inj ha
        have hrm := run_heuristics_mem _ (menu_preserves rel pivot max_next_hop nb)
          (next_hop_of pivot e.as_path) e a0
        rcases hrm with h1 | h1
        · rw [h1] at hsel
          exact Or.inr (by rw [hsel]; exact List.mem_cons_self e l)
        · rw [h1] at hsel
          exact Or.inl ⟨a0, rfl, hsel⟩
    · exact Or.inr (List.mem_cons_of_mem e hmem)

theorem select_entry_mem (rel : String → String → Int) (pivot : String)
    (entries : List Rib_entry) (max_next_hop : String) (nb : Int)
    (sel : Rib_entry)
    (h : select_entry rel pivot entries max_next_hop nb = some sel) :
    sel ∈ entries := by
  unfold select_entry at h
  rcases hm : entries.foldl (select_step rel pivot max_next_hop nb) none with - | p
  · rw [hm] at h; cases h
  · rw [hm] at h
    have hp : p.2 = sel := by simpa using h
    rcases select_fold_mem rel pivot max_next_hop nb entries none p hm with
      ⟨a, ha, -⟩ | hmem
    · simp at ha
    · rw [← hp]; exact hmem

/-- C1 (amended): entries recorded by `parse_bgp_record_multi` always carry a
prefix that passed `check_prefix_validity` and are keyed by its canonical
masked form; and under the valley-free heuristic, every entry selected by
`select_entry` from candidates surviving `build_tree` (which de-prepends the
paths in place and deletes looping ones) has an `as_path` with no adjacent
duplicates and no repeated ASN.  The shortest-path heuristic gives no such
guarantee: it selects straight from the raw current entries without
`build_tree` (see the counterexample). -/
theorem C1_selected_entry_amended
    (rel : String → String → Int) (pivot max_next_hop : String) (nb : Int)
    (entries S : List Rib_entry) (sel : Rib_entry)
    (addr len : Nat) (as_path ases_interest : List String)
    (x : (Nat × Nat) × Rib_entry)
    (hS : ∀ e ∈ S, e ∈ build_tree_entries entries)
    (hsel : select_entry rel pivot S max_next_hop nb = some sel)
    (hrec : record_current_entry addr len as_path ases_interest = some x) :
    check_prefix_validity addr len = true ∧ x.1 = (mask_addr addr len, len) ∧
    sel.as_path.Nodup ∧ List.Chain' (fun a b => a ≠ b) sel.as_path := by
  have hmem := select_entry_mem rel pivot S max_next_hop nb sel hsel
  have hbt := build_tree_mem_nodup entries sel (hS sel hmem)
  have hrec' : check_prefix_validity addr len = true ∧
      x.1 = (mask_addr addr len, len) := by
    unfold record_current_entry at hrec
    by_cases hv : check_prefix_validity addr len = true
    · rw [if_pos hv] at hrec
      refine ⟨hv, ?_⟩
      have hx := Option.some.inj hrec
      rw [← hx]
    · rw [if_neg hv] at hrec; cases hrec
  exact ⟨hrec'.1, hrec'.2, hbt.1, hbt.2⟩

/-- Witness for the amended C1 at a one-entry set: the raw path A A B
survives `build_tree` as the reversed de-prepended path B A, is selected,
and a record at 11.0.0.0/24 passes the validity check. -/
theorem C1_selected_entry_amended_witness :
    (∀ e ∈ [(⟨["B", "A"], []⟩ : Rib_entry)],
        e ∈ build_tree_entries [⟨["A", "A", "B"], []⟩]) ∧
    select_entry (fun _ _ => 3) "" [(⟨["B", "A"], []⟩ : Rib_entry)] "" 0 =
      some ⟨["B", "A"], []⟩ ∧
    record_current_entry (11 * 2 ^ 24) 24 ["X"] [] =
      some ((11 * 2 ^ 24, 24), ⟨["X"], []⟩) ∧
    (check_prefix_validity (11 * 2 ^ 24) 24 = true ∧
     (((11 * 2 ^ 24, 24), (⟨["X"], []⟩ : Rib_entry)) : (Nat × Nat) × Rib_entry).1 =
       (mask_addr (11 * 2 ^ 24) 24, 24) ∧
     (Rib_entry.as_path ⟨["B", "A"], []⟩).Nodup ∧
     List.Chain' (fun a b => a ≠ b) (Rib_entry.as_path ⟨["B", "A"], []⟩)) :=
  ⟨by decide, by decide, by decide,
   C1_selected_entry_amended (fun _ _ => 3) "" "" 0 [⟨["A", "A", "B"], []⟩]
     [⟨["B", "A"], []⟩] ⟨["B", "A"], []⟩ (11 * 2 ^ 24) 24 ["X"] []
     ((11 * 2 ^ 24, 24), ⟨["X"], []⟩) (by decide) (by decide) (by decide)⟩

/-- Counterexample to C1 as stated: under the shortest-path heuristic
(index 0), `apply_shortest_path_heuristic` selects straight from the raw
current entries (no `build_tree`), so the stored entry for a singleton set
keeps the path A A B: an adjacent duplicate and a repeated ASN. -/
theorem C1_selected_entry_counterexample :
    select_entry (fun _ _ => 3) "" [⟨["A", "A", "B"], []⟩] "" 0 =
      some ⟨["A", "A", "B"], []⟩ ∧
    ¬ List.Chain' (fun a b => a ≠ b) (Rib_entry.as_path ⟨["A", "A", "B"], []⟩) ∧
    ¬ (Rib_entry.as_path ⟨["A", "A", "B"], []⟩).Nodup := by
  refine ⟨by decide, ?_, ?_⟩
  · intro h
    rw [show Rib_entry.as_path ⟨["A", "A", "B"], []⟩ = ["A", "A", "B"] from rfl,
      List.chain'_cons] at h
    exact h.1 rfl
  · intro h
    rw [show Rib_entry.as_path ⟨["A", "A", "B"], []⟩ = ["A", "A", "B"] from rfl,
      List.nodup_cons] at h
    exact h.1 (List.mem_cons_self _ _)

/- ------------------------------------------------------------------ -/
/-  C2 theorem                                                        -/
/- ------------------------------------------------------------------ -/

/-- C2: on the selected-entry table {10.0.0.0/22 -> A B, 10.0.0.0/24 -> A B,
10.0.1.0/24 -> A B, 10.0.2.0/24 -> A C, 10.0.3.0/24 -> A C} the overlay
extractor emits the explicit pairs (10.0.0.0/22, 10.0.0.0/24) and
(10.0.0.0/22, 10.0.1.0/24) and the implicit pairs (10.0.2.0/23,
10.0.2.0/24) and (10.0.2.0/23, 10.0.3.0/24), and after the
connected-component closure the two groups are exactly
{10.0.0.0/22, 10.0.0.0/24, 10.0.1.0/24} and {10.0.2.0/23, 10.0.2.0/24,
10.0.3.0/24}, and they are disjoint. -/
theorem C2_overlay_components :
    (("10.0.0.0/22", "10.0.0.0/24") ∈ process_overlays_edges c2_table ∧
     ("10.0.0.0/22", "10.0.1.0/24") ∈ process_overlays_edges c2_table ∧
     ("10.0.2.0/23", "10.0.2.0/24") ∈ process_overlays_edges c2_table ∧
     ("10.0.2.0/23", "10.0.3.0/24") ∈ process_overlays_edges c2_table) ∧
    component (process_overlays_edges c2_table) "10.0.0.0/22" =
      ["10.0.0.0/22", "10.0.0.0/24", "10.0.1.0/24"] ∧
    component (process_overlays_edges c2_table) "10.0.2.0/23" =
      ["10.0.2.0/23", "10.0.2.0/24", "10.0.3.0/24"] ∧
    ∀ x ∈ component (process_overlays_edges c2_table) "10.0.0.0/22",
      x ∉ component (process_overlays_edges c2_table) "10.0.2.0/23" := by
  decide

/- ------------------------------------------------------------------ -/
/-  C7 theorems                                                       -/
/- ------------------------------------------------------------------ -/

theorem inlookup_inappend_ne (m : List (String × Finset String)) (r a r' : String)
    (hne : r' ≠ r) : inlookup r' (inappend m r a) = inlookup r' m := by
  induction m with
  | nil =>
    simp only [inappend, inlookup]
    rw [if_neg (fun he => hne he.symm)]
  | cons p m ih =>
    simp only [inappend]
    by_cases hp : p.1 = r
    · rw [if_pos hp]
      simp only [inlookup]
      have hner : ¬ p.1 = r' := by rw [hp]; exact fun he => hne he.symm
      rw [if_neg hner, if_neg hner]
    · rw [if_neg hp]
      simp only [inlookup]
      by_cases hpr : p.1 = r'
      · rw [if_pos hpr, if_pos hpr]
      · rw [if_neg hpr, if_neg hpr, ih]

theorem inlookup_inappend_none (m : List (String × Finset String)) (r a : String)
    (h : inlookup r m = none) : inlookup r (inappend m r a) = some {a} := by
  induction m with
  | nil =>
    simp only [inappend, inlookup]
    simp
  | cons p m ih =>
    simp only [inlookup] at h
    by_cases hp : p.1 = r
    · rw [if_pos hp] at h; cases h
    · rw [if_neg hp] at h
      simp only [inappend]
      rw [if_neg hp]
      simp only [inlookup]
      rw [if_neg hp, ih h]

theorem inlookup_inappend_some (m : List (String × Finset String)) (r a : String)
    (s : Finset String) (h : inlookup r m = some s) :
    inlookup r (inappend m r a) = some (insert a s) := by
  induction m with
  | nil => cases h
  | cons p m ih =>
    simp only [inlookup] at h
    by_cases hp : p.1 = r
    · rw [if_pos hp] at h
      simp only [inappend]
      rw [if_pos hp]
      simp only [inlookup]
      rw [if_pos hp, Option.some.inj h]
    · rw [if_neg hp] at h
      simp only [inappend]
      rw [if_neg hp]
      simp only [inlookup]
      rw [if_neg hp, ih h]

theorem router_block_none (st1 : DiscState) (r a : String)
    (hip : inlookup r st1.inprog = none) :
    router_block st1 r a = { st1 with inprog := inappend st1.inprog r a } := by
  unfold router_block; rw [hip]

theorem router_block_some (st1 : DiscState) (r a : String) (s : Finset String)
    (hip : inlookup r st1.inprog = some s) :
    router_block st1 r a =
      if s.card = 1 ∧ a ∉ s then
        { st1 with routers := insert r st1.routers,
                   inprog := inappend st1.inprog r a }
      else st1 := by
  unfold router_block; rw [hip]

theorem proc_one_not (AS : String) (h : Hop) (st : DiscState)
    (hAS : ¬ h.asn = AS) : proc_one AS h st = st := by
  unfold proc_one; rw [if_neg hAS]

theorem proc_one_no_router (AS : String) (h : Hop) (st : DiscState)
    (hAS : h.asn = AS) (hrr : ¬ h.router ≠ "") :
    proc_one AS h st =
      { st with addrs := insert h.addr st.addrs, disc := st.disc + 1 } := by
  unfold proc_one; rw [if_pos hAS, if_neg hrr]

theorem proc_one_router (AS : String) (h : Hop) (st : DiscState)
    (hAS : h.asn = AS) (hrr : h.router ≠ "") :
    proc_one AS h st =
      router_block { st with addrs := insert h.addr st.addrs, disc := st.disc + 1 }
        h.router h.addr := by
  unfold proc_one; rw [if_pos hAS, if_pos hrr]

theorem router_block_inv
    (F : List (String × String) × List (String × String) × List String × List String)
    (st1 : DiscState) (r a : String) (hrf : r ∈ F.2.2.2)
    (hinv : DiscInv F st1) : DiscInv F (router_block st1 r a) := by
  obtain ⟨h1, h2, h3, h4, h5⟩ := hinv
  cases hip : inlookup r st1.inprog with
  | none =>
    rw [router_block_none st1 r a hip]
    refine ⟨h1, h2, h3, h4, ?_⟩
    intro r' hr'
    obtain ⟨s, hls, hcs⟩ := h5 r' hr'
    have hne : r' ≠ r := by
      intro he; rw [he, hip] at hls; cases hls
    exact ⟨s, by rw [inlookup_inappend_ne st1.inprog r a r' hne]; exact hls, hcs⟩
  | some s =>
    rw [router_block_some st1 r a s hip]
    by_cases hc : s.card = 1 ∧ a ∉ s
    · rw [if_pos hc]
      refine ⟨h1, h2, h3, ?_, ?_⟩
      · intro r' hr'
        rcases Finset.mem_insert.mp hr' with rfl | hr'
        · exact hrf
        · exact h4 r' hr'
      · intro r' hr'
        rcases Finset.mem_insert.mp hr' with rfl | hr'
        · refine ⟨insert a s, inlookup_inappend_some st1.inprog r' a s hip, ?_⟩
          rw [Finset.card_insert_of_not_mem hc.2, hc.1]
        · obtain ⟨s', hls', hcs'⟩ := h5 r' hr'
          by_cases hne : r' = r
          · rw [hne, hip] at hls'
            have hss := Option.some.inj hls'
            rw [← hss] at hcs'
            rw [hc.1] at hcs'
            omega
          · exact ⟨s', by rw [inlookup_inappend_ne st1.inprog r a r' hne]; exact hls',
              hcs'⟩
    · rw [if_neg hc]; exact ⟨h1, h2, h3, h4, h5⟩

theorem proc_one_inv (AS : String) (adjs multi_adjs : List (String × String))
    (addresses : List String) (r2a a2a : List (String × String)) (h : Hop)
    (st : DiscState) (HAS : AS ≠ "-1") (ha : h.addr ∈ addresses)
    (hs : h.asn ≠ "-1" → alookup h.addr a2a = some h.asn)
    (hr : h.asn ≠ "-1" → h.router ≠ "" → alookup h.router r2a = some h.asn)
    (hinv : DiscInv (filterAS AS adjs multi_adjs addresses r2a a2a) st) :
    DiscInv (filterAS AS adjs multi_adjs addresses r2a a2a) (proc_one AS h st) := by
  obtain ⟨h1, h2, h3, h4, h5⟩ := hinv
  by_cases hAS : h.asn = AS
  · have hne : h.asn ≠ "-1" := by rw [hAS]; exact HAS
    have haddr_f : h.addr ∈ (filterAS AS adjs multi_adjs addresses r2a a2a).2.2.1 := by
      apply List.mem_filter.mpr
      refine ⟨ha, ?_⟩
      rw [hs hne, ← hAS]
      simp
    have hinv1 : DiscInv (filterAS AS adjs multi_adjs addresses r2a a2a)
        { st with addrs := insert h.addr st.addrs, disc := st.disc + 1 } := by
      refine ⟨h1, h2, ?_, h4, h5⟩
      intro x hx
      rcases Finset.mem_insert.mp hx with rfl | hx
      · exact haddr_f
      · exact h3 x hx
    by_cases hrr : h.router ≠ ""
    · rw [proc_one_router AS h st hAS hrr]
      apply router_block_inv _ _ _ _ _ hinv1
      have hlk : alookup h.router r2a = some AS := by rw [hr hne hrr, hAS]
      unfold alookup at hlk
      cases hf : r2a.find? (fun p => p.1 == h.router) with
      | none => rw [hf] at hlk; cases hlk
      | some p =>
        rw [hf] at hlk
        have hp2 : p.2 = AS := Option.some.inj hlk
        have hpm : p ∈ r2a := List.mem_of_find?_eq_some hf
        have hpk : p.1 = h.router := by
          have := List.find?_some hf
          simpa using this
        apply List.mem_filterMap.mpr
        refine ⟨p, hpm, ?_⟩
        rw [hp2]
        simp [hpk]
    · rw [proc_one_no_router AS h st hAS hrr]
      exact hinv1
  · rw [proc_one_not AS h st hAS]
    exact ⟨h1, h2, h3, h4, h5⟩

theorem process_hops_cons (AS : String) (h h2 : Hop) (rest : List Hop)
    (st : DiscState) :
    process_hops AS (h :: h2 :: rest) st =
      process_hops AS (h2 :: rest)
        (if h.asn ≠ AS ∧ h2.asn ≠ AS then proc_one AS h st
         else if h2.probe_ttl - h.probe_ttl = 1 then
          { proc_one AS h st with
            adjs := insert (h.addr, h2.addr) (proc_one AS h st).adjs }
         else if 1 < h2.probe_ttl - h.probe_ttl then
          { proc_one AS h st with
            multi_adjs := insert (h.addr, h2.addr) (proc_one AS h st).multi_adjs }
         else proc_one AS h st) := rfl

theorem proc_one_keeps (AS : String) (h : Hop) (st : DiscState) :
    (proc_one AS h st).adjs = st.adjs ∧
    (proc_one AS h st).multi_adjs = st.multi_adjs := by
  by_cases hAS : h.asn = AS
  · by_cases hrr : h.router ≠ ""
    · rw [proc_one_router AS h st hAS hrr]
      set st1 : DiscState :=
        { st with addrs := insert h.addr st.addrs, disc := st.disc + 1 } with hst1
      cases hip : inlookup h.router st1.inprog with
      | none => rw [router_block_none st1 h.router h.addr hip]; exact ⟨rfl, rfl⟩
      | some s =>
        rw [router_block_some st1 h.router h.addr s hip]
        by_cases hc : s.card = 1 ∧ h.addr ∉ s
        · rw [if_pos hc]; exact ⟨rfl, rfl⟩
        · rw [if_neg hc]; exact ⟨rfl, rfl⟩
    · rw [proc_one_no_router AS h st hAS hrr]; exact ⟨rfl, rfl⟩
  · rw [proc_one_not AS h st hAS]; exact ⟨rfl, rfl⟩

theorem process_hops_inv (AS : String) (adjs multi_adjs : List (String × String))
    (addresses : List String) (r2a a2a : List (String × String)) (HAS : AS ≠ "-1") :
    ∀ (t : List Hop) (st : DiscState),
      (∀ h ∈ t, h.addr ∈ addresses) →
      (∀ h ∈ t, h.asn ≠ "-1" → alookup h.addr a2a = some h.asn) →
      (∀ h ∈ t, h.asn ≠ "-1" → h.router ≠ "" → alookup h.router r2a = some h.asn) →
      (∀ p ∈ t.zip t.tail,
        (p.2.probe_ttl - p.1.probe_ttl = 1 → (p.1.addr, p.2.addr) ∈ adjs) ∧
        (1 < p.2.probe_ttl - p.1.probe_ttl → (p.1.addr, p.2.addr) ∈ multi_adjs)) →
      DiscInv (filterAS AS adjs multi_adjs addresses r2a a2a) st →
      DiscInv (filterAS AS adjs multi_adjs addresses r2a a2a)
        (process_hops AS t st) := by
  intro t
  induction t with
  | nil => intro st _ _ _ _ hinv; exact hinv
  | cons h rest ih =>
    cases rest with
    | nil =>
      intro st ha hs hr _ hinv
      exact proc_one_inv AS adjs multi_adjs addresses r2a a2a h st HAS
        (ha h (List.mem_cons_self _ _)) (hs h (List.mem_cons_self _ _))
        (hr h (List.mem_cons_self _ _)) hinv
    | cons h2 rest2 =>
      intro st ha hs hr hz hinv
      rw [process_hops_cons]
      have hone := proc_one_inv AS adjs multi_adjs addresses r2a a2a h st HAS
        (ha h (List.mem_cons_self _ _)) (hs h (List.mem_cons_self _ _))
        (hr h (List.mem_cons_self _ _)) hinv
      have hz0 := hz (h, h2) (by
        show (h, h2) ∈ (h :: h2 :: rest2).zip (h2 :: rest2)
        rw [List.zip_cons_cons]
        exact List.mem_cons_self _ _)
      have hst2 : DiscInv (filterAS AS adjs multi_adjs addresses r2a a2a)
          (if h.asn ≠ AS ∧ h2.asn ≠ AS then proc_one AS h st
           else if h2.probe_ttl - h.probe_ttl = 1 then
            { proc_one AS h st with
              adjs := insert (h.addr, h2.addr) (proc_one AS h st).adjs }
           else if 1 < h2.probe_ttl - h.probe_ttl then
            { proc_one AS h st with
              multi_adjs := insert (h.addr, h2.addr) (proc_one AS h st).multi_adjs }
           else proc_one AS h st) := by
        by_cases hskip : h.asn ≠ AS ∧ h2.asn ≠ AS
        · rw [if_pos hskip]; exact hone
        · rw [if_neg hskip]
          have hor : h.asn = AS ∨ h2.asn = AS := by
            by_cases hh : h.asn = AS
            · exact Or.inl hh
            · exact Or.inr (by
                by_contra hh2
                exact hskip ⟨hh, hh2⟩)
          have hpred : (alookup h.addr a2a == some AS
              || alookup h2.addr a2a == some AS) = true := by
            rcases hor with hcase | hcase
            · have := hs h (List.mem_cons_self _ _) (by rw [hcase]; exact HAS)
              rw [this, hcase]
              simp
            · have := hs h2 (List.mem_cons_of_mem _ (List.mem_cons_self _ _))
                (by rw [hcase]; exact HAS)
              rw [this, hcase]
              simp
          obtain ⟨g1, g2, g3, g4, g5⟩ := hone
          by_cases hd1 : h2.probe_ttl - h.probe_ttl = 1
          · rw [if_pos hd1]
            refine ⟨?_, g2, g3, g4, g5⟩
            intro p hp
            rcases Finset.mem_insert.mp hp with rfl | hp
            · exact List.mem_filter.mpr ⟨hz0.1 hd1, hpred⟩
            · exact g1 p hp
          · rw [if_neg hd1]
            by_cases hd2 : 1 < h2.probe_ttl - h.probe_ttl
            · rw [if_pos hd2]
              refine ⟨g1, ?_, g3, g4, g5⟩
              intro p hp
              rcases Finset.mem_insert.mp hp with rfl | hp
              · exact List.mem_filter.mpr ⟨hz0.2 hd2, hpred⟩
              · exact g2 p hp
            · rw [if_neg hd2]
              exact ⟨g1, g2, g3, g4, g5⟩
      refine ih _ (fun x hx => ha x (List.mem_cons_of_mem _ hx))
        (fun x hx => hs x (List.mem_cons_of_mem _ hx))
        (fun x hx => hr x (List.mem_cons_of_mem _ hx))
        (fun p hp => hz p (by
          show p ∈ (h :: h2 :: rest2).zip (h2 :: rest2)
          rw [List.zip_cons_cons]
          exact List.mem_cons_of_mem _ hp))
        hst2

theorem process_traces_inv (AS : String) (adjs multi_adjs : List (String × String))
    (addresses : List String) (r2a a2a : List (String × String)) (HAS : AS ≠ "-1")
    (trs : List (List Hop))
    (Haddr : ∀ t ∈ trs, ∀ h ∈ t, h.addr ∈ addresses)
    (Hasn : ∀ t ∈ trs, ∀ h ∈ t, h.asn ≠ "-1" → alookup h.addr a2a = some h.asn)
    (Hrouter : ∀ t ∈ trs, ∀ h ∈ t, h.asn ≠ "-1" → h.router ≠ "" →
      alookup h.router r2a = some h.asn)
    (Hadj : ∀ t ∈ trs, ∀ p ∈ t.zip t.tail,
      (p.2.probe_ttl - p.1.probe_ttl = 1 → (p.1.addr, p.2.addr) ∈ adjs) ∧
      (1 < p.2.probe_ttl - p.1.probe_ttl → (p.1.addr, p.2.addr) ∈ multi_adjs)) :
    ∀ (st : DiscState),
      DiscInv (filterAS AS adjs multi_adjs addresses r2a a2a) st →
      DiscInv (filterAS AS adjs multi_adjs addresses r2a a2a)
        (process_traces AS trs st) := by
  induction trs with
  | nil => intro st hinv; exact hinv
  | cons t trs ih =>
    intro st hinv
    exact ih (fun x hx => Haddr x (List.mem_cons_of_mem _ hx))
      (fun x hx => Hasn x (List.mem_cons_of_mem _ hx))
      (fun x hx => Hrouter x (List.mem_cons_of_mem _ hx))
      (fun x hx => Hadj x (List.mem_cons_of_mem _ hx)) _
      (process_hops_inv AS adjs multi_adjs addresses r2a a2a HAS t st
        (Haddr t (List.mem_cons_self _ _)) (Hasn t (List.mem_cons_self _ _))
        (Hrouter t (List.mem_cons_self _ _)) (Hadj t (List.mem_cons_self _ _)) hinv)

theorem disc_init_inv
    (F : List (String × String) × List (String × String) × List String × List String) :
    DiscInv F init_disc := by
  refine ⟨?_, ?_, ?_, ?_, ?_⟩ <;>
    intro x hx <;> exact absurd hx (Finset.not_mem_empty x)

theorem finset_card_le_list {α : Type} [DecidableEq α] (s : Finset α) (l : List α)
    (h : ∀ x ∈ s, x ∈ l) : s.card ≤ l.length := by
  have h1 : s ⊆ l.toFinset := fun x hx => List.mem_toFinset.mpr (h x hx)
  calc s.card ≤ l.toFinset.card := Finset.card_le_card h1
    _ ≤ l.length := l.toFinset_card_le

theorem frac_bounds (d g : Nat) (hd : d ≤ g) (hg : 0 < g) :
    0 ≤ (d : ℚ) / (g : ℚ) ∧ (d : ℚ) / (g : ℚ) ≤ 1 := by
  constructor
  · positivity
  · rw [div_le_one (by exact_mod_cast hg)]
    exact_mod_cast hd

/-- C7 (amended): provided the bdrmapit router annotation is consistent with
the per-address annotation — every hop of the AS of interest that belongs to
a router has that router mapped to the hop's AS in `router_to_asn` — and the
traces are the committed ground-truth ones (hop addresses in the address
set, hop ASNs from `addr_to_asn` with `-1` for unknown, consecutive-hop
pairs in the adjacency sets by TTL distance), then in every simulation run
each discovered set stays a subset of the corresponding AS-filtered
ground-truth set, the sum of discovered counts never exceeds the sum of
ground-truth counts, each reported fraction with a nonempty denominator lies
in [0,1] (Go divides float64 counts; for such counts the sign and the
comparison with 1 agree with the exact rational value), and a router enters
`discovered_routers` only after two distinct member addresses were observed.
The consistency proviso is not guaranteed by `ReadSqlite` (see the
counterexample). -/
theorem C7_discovery_bounds_amended
    (AS : String) (adjs multi_adjs : List (String × String))
    (addresses : List String) (router_to_asn addr_to_asn : List (String × String))
    (trs : List (List Hop)) (HAS : AS ≠ "-1")
    (Haddr : ∀ t ∈ trs, ∀ h ∈ t, h.addr ∈ addresses)
    (Hasn : ∀ t ∈ trs, ∀ h ∈ t, h.asn ≠ "-1" →
      alookup h.addr addr_to_asn = some h.asn)
    (Hrouter : ∀ t ∈ trs, ∀ h ∈ t, h.asn ≠ "-1" → h.router ≠ "" →
      alookup h.router router_to_asn = some h.asn)
    (Hadj : ∀ t ∈ trs, ∀ p ∈ t.zip t.tail,
      (p.2.probe_ttl - p.1.probe_ttl = 1 → (p.1.addr, p.2.addr) ∈ adjs) ∧
      (1 < p.2.probe_ttl - p.1.probe_ttl → (p.1.addr, p.2.addr) ∈ multi_adjs)) :
    (∀ p ∈ (process_traces AS trs init_disc).adjs,
      p ∈ (filterAS AS adjs multi_adjs addresses router_to_asn addr_to_asn).1) ∧
    (∀ p ∈ (process_traces AS trs init_disc).multi_adjs,
      p ∈ (filterAS AS adjs multi_adjs addresses router_to_asn addr_to_asn).2.1) ∧
    (∀ a ∈ (process_traces AS trs init_disc).addrs,
      a ∈ (filterAS AS adjs multi_adjs addresses router_to_asn addr_to_asn).2.2.1) ∧
    (∀ r ∈ (process_traces AS trs init_disc).routers,
      r ∈ (filterAS AS adjs multi_adjs addresses router_to_asn addr_to_asn).2.2.2) ∧
    ((process_traces AS trs init_disc).adjs.card +
      (process_traces AS trs init_disc).multi_adjs.card +
      (process_traces AS trs init_disc).addrs.card +
      (process_traces AS trs init_disc).routers.card ≤
      (filterAS AS adjs multi_adjs addresses router_to_asn addr_to_asn).1.length +
      (filterAS AS adjs multi_adjs addresses router_to_asn addr_to_asn).2.1.length +
      (filterAS AS adjs multi_adjs addresses router_to_asn addr_to_asn).2.2.1.length +
      (filterAS AS adjs multi_adjs addresses router_to_asn addr_to_asn).2.2.2.length) ∧
    (0 < (filterAS AS adjs multi_adjs addresses router_to_asn addr_to_asn).1.length →
      0 ≤ ((process_traces AS trs init_disc).adjs.card : ℚ) /
        (((filterAS AS adjs multi_adjs addresses router_to_asn addr_to_asn).1.length : Nat) : ℚ) ∧
      ((process_traces AS trs init_disc).adjs.card : ℚ) /
        (((filterAS AS adjs multi_adjs addresses router_to_asn addr_to_asn).1.length : Nat) : ℚ) ≤ 1) ∧
    (0 < (filterAS AS adjs multi_adjs addresses router_to_asn addr_to_asn).2.1.length →
      0 ≤ ((process_traces AS trs init_disc).multi_adjs.card : ℚ) /
        (((filterAS AS adjs multi_adjs addresses router_to_asn addr_to_asn).2.1.length : Nat) : ℚ) ∧
      ((process_traces AS trs init_disc).multi_adjs.card : ℚ) /
        (((filterAS AS adjs multi_adjs addresses router_to_asn addr_to_asn).2.1.length : Nat) : ℚ) ≤ 1) ∧
    (0 < (filterAS AS adjs multi_adjs addresses router_to_asn addr_to_asn).2.2.1.length →
      0 ≤ ((process_traces AS trs init_disc).addrs.card : ℚ) /
        (((filterAS AS adjs multi_adjs addresses router_to_asn addr_to_asn).2.2.1.length : Nat) : ℚ) ∧
      ((process_traces AS trs init_disc).addrs.card : ℚ) /
        (((filterAS AS adjs multi_adjs addresses router_to_asn addr_to_asn).2.2.1.length : Nat) : ℚ) ≤ 1) ∧
    (0 < (filterAS AS adjs multi_adjs addresses router_to_asn addr_to_asn).2.2.2.length →
      0 ≤ ((process_traces AS trs init_disc).routers.card : ℚ) /
        (((filterAS AS adjs multi_adjs addresses router_to_asn addr_to_asn).2.2.2.length : Nat) : ℚ) ∧
      ((process_traces AS trs init_disc).routers.card : ℚ) /
        (((filterAS AS adjs multi_adjs addresses router_to_asn addr_to_asn).2.2.2.length : Nat) : ℚ) ≤ 1) ∧
    (∀ r ∈ (process_traces AS trs init_disc).routers, ∃ s,
      inlookup r (process_traces AS trs init_disc).inprog = some s ∧ 2 ≤ s.card) := by
  obtain ⟨h1, h2, h3, h4, h5⟩ :=
    process_traces_inv AS adjs multi_adjs addresses router_to_asn addr_to_asn HAS
      trs Haddr Hasn Hrouter Hadj init_disc
      (disc_init_inv (filterAS AS adjs multi_adjs addresses router_to_asn addr_to_asn))
  have c1 := finset_card_le_list _ _ h1
  have c2 := finset_card_le_list _ _ h2
  have c3 := finset_card_le_list _ _ h3
  have c4 := finset_card_le_list _ _ h4
  refine ⟨h1, h2, h3, h4, by omega, ?_, ?_, ?_, ?_, h5⟩
  · intro hg; exact frac_bounds _ _ c1 hg
  · intro hg; exact frac_bounds _ _ c2 hg
  · intro hg; exact frac_bounds _ _ c3 hg
  · intro hg; exact frac_bounds _ _ c4 hg

/-- Witness for the amended C7 at a two-hop trace with consistent bdrmapit
annotations. -/
theorem C7_discovery_bounds_amended_witness :
    ("1" : String) ≠ "-1" ∧
    (∀ t ∈ [c7trace], ∀ h ∈ t, h.addr ∈ ["a1", "a2"]) ∧
    (∀ t ∈ [c7trace], ∀ h ∈ t, h.asn ≠ "-1" →
      alookup h.addr c7a2a = some h.asn) ∧
    (∀ t ∈ [c7trace], ∀ h ∈ t, h.asn ≠ "-1" → h.router ≠ "" →
      alookup h.router [("R", "1")] = some h.asn) ∧
    (∀ t ∈ [c7trace], ∀ p ∈ t.zip t.tail,
      (p.2.probe_ttl - p.1.probe_ttl = 1 → (p.1.addr, p.2.addr) ∈ [("a1", "a2")]) ∧
      (1 < p.2.probe_ttl - p.1.probe_ttl →
        (p.1.addr, p.2.addr) ∈ ([] : List (String × String)))) ∧
    (∀ p ∈ (process_traces "1" [c7trace] init_disc).adjs,
      p ∈ (filterAS "1" [("a1", "a2")] [] ["a1", "a2"] [("R", "1")] c7a2a).1) :=
  ⟨by decide, by decide, by decide, by decide, by decide,
   (C7_discovery_bounds_amended "1" [("a1", "a2")] [] ["a1", "a2"] [("R", "1")]
     c7a2a [c7trace] (by decide) (by decide) (by decide) (by decide) (by decide)).1⟩

/-- Counterexample to C7 as stated: `ReadSqlite` keeps the LAST row's ASN
per router, so a router whose member addresses carry different ASNs is
attributed to only one of them; a trace observing two of its member
addresses inside AS 1 puts it into `discovered_routers` while `filterAS`'s
ground-truth router set for AS 1 is empty — the discovered set is not a
subset of the filtered ground truth and the router fraction is 1/0. -/
theorem C7_discovery_bounds_counterexample :
    ("R" ∈ (process_hops "1" c7trace init_disc).routers) ∧
    alookup "a1" (ReadSqlite (fun _ => false) c7rows).1 = some "1" ∧
    alookup "a2" (ReadSqlite (fun _ => false) c7rows).1 = some "1" ∧
    alookup "a1" (ReadSqlite (fun _ => false) c7rows).2.2 = some "R" ∧
    alookup "a2" (ReadSqlite (fun _ => false) c7rows).2.2 = some "R" ∧
    alookup "R" (ReadSqlite (fun _ => false) c7rows).2.1 = some "2" ∧
    (filterAS "1" [] [] [] (ReadSqlite (fun _ => false) c7rows).2.1
      (ReadSqlite (fun _ => false) c7rows).1).2.2.2 = [] := by
  decide
